import Mathlib

/-!
Verification development for build/android/gradle/generate_gradle.py.

The script translates a GN dependency graph into Gradle project files.
Paths handled by the java-source-directory / exclude-filter pipeline are
modelled as lists of POSIX components (`List String`); GN identity strings
handled by `_ProjectEntry` are modelled as `List Char`.  OS path primitives
(`os.path.dirname`, `os.path.relpath`, `os.path.split`, `glob.glob`,
`build_utils.FindInDirectory`) are implemented on these representations;
the filesystem consulted by `glob.glob` and `FindInDirectory` is passed in
explicitly as the list of files on disk.  The jinja templating engine is an
external renderer and is passed in as an opaque function.
-/

/-- Python `str.endswith`, evaluated through the character list so that it is
kernel-computable. -/
def strEndsWith (s suf : String) : Bool :=
  s.toList.drop (s.toList.length - suf.toList.length) == suf.toList

/-- Python `str.startswith`, evaluated through the character list so that it
is kernel-computable. -/
def strStartsWith (s pre : String) : Bool :=
  s.toList.take pre.toList.length == pre.toList

/-- A filesystem path, as its list of POSIX components. -/
abbrev Pth := List String

/-- The glob component used by the exclude computation: `*.java`. -/
def starJava : String := "*.java"

/-- Models `os.path.dirname` on component lists. -/
def dirnameP (p : Pth) : Pth := p.dropLast

/-- Models `glob.glob(target_exclude)` for `target_exclude =
os.path.join(d, '*.java')`: the on-disk files that sit directly in directory
`d`, end in `.java`, and are not hidden (the glob module's `*` never matches
a leading dot). -/
def globJava (fs : List Pth) (d : Pth) : List Pth :=
  fs.filter (fun f => f.dropLast == d &&
    (match f.getLast? with
     | some b => strEndsWith b ".java" && !(strStartsWith b ".")
     | none => false))

/-- Models `build_utils.FindInDirectory(d, '*.java')`: `os.walk` plus
`fnmatch`, i.e. every on-disk file strictly below `d` (at any depth) whose
basename ends in `.java` (`fnmatch` does match a leading dot). -/
def findInDirectory (fs : List Pth) (d : Pth) : List Pth :=
  fs.filter (fun f => f.take d.length == d && decide (d.length < f.length) &&
    (match f.getLast? with
     | some b => strEndsWith b ".java"
     | none => false))

/-- Length of the common component prefix of two paths. -/
def cpl : Pth → Pth → Nat
  | a :: as, b :: bs => if a = b then cpl as bs + 1 else 0
  | _, _ => 0

/-- Models `os.path.relpath` on component lists (posixpath.relpath for
already-normalized absolute inputs): pad with `..` up to the common prefix,
then descend; the empty result is the current directory. -/
def relpathP (p base : Pth) : Pth :=
  let i := cpl p base
  let r := List.replicate (base.length - i) ".." ++ p.drop i
  if r = [] then ["."] else r

/-- A path free of the special `.` and `..` components (every normalized
absolute path is). -/
def nodots (p : Pth) : Prop := "." ∉ p ∧ ".." ∉ p

instance (p : Pth) : Decidable (nodots p) := by unfold nodots; infer_instance

/-- Whether an exclude pattern (a path relative to source root `root`, as
produced by `_ComputeExcludeFilters`) excludes the file `file`: a
directory-glob pattern `<dir>/*.java` matches every `.java` file directly in
that directory, any other pattern matches exactly the literal path. -/
def excludesFile (root pat file : Pth) : Bool :=
  if pat.getLast? == some starJava then
    file.dropLast == root ++ pat.dropLast &&
      (match file.getLast? with
       | some b => strEndsWith b ".java"
       | none => false)
  else file == root ++ pat

/-- The loop of `_ComputeExcludeFilters`.  `files_to_exclude` is modelled as
the work list (Python pops an arbitrary set element; the list order stands
for that choice), `files_to_include` is `wanted`.  Each iteration pops `u`,
globs `dirname(u)/*.java` against the disk, intersects with the wanted
files; if the intersection is nonempty it emits `u`'s literal relative path,
otherwise it emits the directory glob (relative to `parent`) and also drops
every globbed file from the work list.  The fuel argument only pays for the
iterations (the work list never grows), so `unwanted.length` suffices. -/
def excludeGo (fs wanted : List Pth) (parent : Pth) : Nat → List Pth → List Pth
  | 0, _ => []
  | _ + 1, [] => []
  | fuel + 1, u :: rest =>
    let found := globJava fs (dirnameP u)
    if (found.filter (fun g => wanted.contains g)).isEmpty then
      relpathP (dirnameP u ++ [starJava]) parent ::
        excludeGo fs wanted parent fuel (rest.filter (fun r => !(found.contains r)))
    else
      relpathP u parent :: excludeGo fs wanted parent fuel rest

/-- Models `_ComputeExcludeFilters(wanted_files, unwanted_files, parent_dir)`
with the on-disk files `fs` made explicit. -/
def _ComputeExcludeFilters (fs wanted unwanted : List Pth) (parent : Pth) : List Pth :=
  excludeGo fs wanted parent unwanted.length unwanted

/-- The root-finding walk of `_ComputeJavaSourceDirs`: repeatedly take
`dirname`, stop at a `java`/`src` component, step one further up at a
`javax`/`org`/`com` component; running out of components is the `assert
basename` failure, modelled as `none`.  Each step shortens the path, so
`p.length` fuel suffices. -/
def findRootGo : Nat → Pth → Option Pth
  | 0, _ => none
  | fuel + 1, p =>
    let r := dirnameP p
    match r.getLast? with
    | none => none
    | some b =>
      if b = "java" ∨ b = "src" then some r
      else if b = "javax" ∨ b = "org" ∨ b = "com" then some (dirnameP r)
      else findRootGo fuel r

/-- The per-file source-root computation of `_ComputeJavaSourceDirs`. -/
def findRoot (p : Pth) : Option Pth := findRootGo p.length p

/-- `found_roots[path_root].append(path)` with dict-key insertion order. -/
def insertRoot (acc : List (Pth × List Pth)) (root file : Pth) : List (Pth × List Pth) :=
  if acc.any (fun kv => kv.1 == root) then
    acc.map (fun kv => if kv.1 == root then (kv.1, kv.2 ++ [file]) else kv)
  else acc ++ [(root, [file])]

/-- Models `_ComputeJavaSourceDirs(java_files)`: group the files by their
inferred source root; `none` when the walk asserts for some file. -/
def _ComputeJavaSourceDirs (files : List Pth) : Option (List (Pth × List Pth)) :=
  files.foldl (fun acc p => do
    let a ← acc
    let r ← findRoot p
    pure (insertRoot a r p)) (some [])

/-- Models `_RebasePath(p)` (the `new_cwd = None` form, i.e.
`os.path.abspath(os.path.join(out_dir, p))`) in the component world, for
inputs that need no `..`-normalization: prepend the output directory. -/
def rebaseAbsP (outDir p : Pth) : Pth := outDir ++ p

/-- Models `_CreateJavaSourceDir(output_dir, java_files)` with the on-disk
files `fs` made explicit: rebase the owned files, group them by inferred
root, scan each root on disk, and turn the extra on-disk files into exclude
filters.  (The source additionally logs a warning for owned files missing
from every scan; that is a pure side effect and is not modelled.) -/
def _CreateJavaSourceDir (fs : List Pth) (outputDir : Pth) (javaFiles : List Pth) :
    Option (List Pth × List Pth) :=
  if javaFiles.isEmpty then some ([], [])
  else do
    let files := javaFiles.map (rebaseAbsP outputDir)
    let computed ← _ComputeJavaSourceDirs files
    let excludes := computed.foldl (fun acc dv =>
      let foundJava := findInDirectory fs dv.1
      let unwanted := foundJava.filter (fun f => !(dv.2.contains f))
      if unwanted.isEmpty then acc
      else acc ++ _ComputeExcludeFilters fs dv.2 unwanted dv.1) []
    pure (computed.map (fun dv => dv.1), excludes)

/-! ### Dependency graph walker (`_FindAllProjectEntries`)

An entry is identified by its GN target; the composite map `entry ↦ the
entries decoded from its deps_configs` (descriptor lookup plus
`FromBuildConfigPath`) is external input data and is modelled as a function
`deps` on a finite identity universe `Fin n`. -/

/-- The worklist loop of `_FindAllProjectEntries`.  `to_scan` is kept
top-first (Python pops from the end and extends at the end, so `extend`
prepends the reversed dependency list here); an identity already in `found`
is skipped, otherwise it is marked found before its dependencies are
pushed. -/
def findLoop {n : Nat} (deps : Fin n → List (Fin n)) :
    List (Fin n) → Finset (Fin n) → Finset (Fin n)
  | [], found => found
  | cur :: rest, found =>
    if cur ∈ found then findLoop deps rest found
    else findLoop deps ((deps cur).reverse ++ rest) (insert cur found)
termination_by q found => ((Finset.univ \ found).card, q.length)
decreasing_by
· apply Prod.Lex.right
  simp
· apply Prod.Lex.left
  rw [Finset.sdiff_insert]
  exact Finset.card_erase_lt_of_mem (by simp [*])

/-- Step-indexed version of `findLoop`: `none` when the fuel runs out before
the work list empties.  Existence of sufficient fuel is exactly termination
of the source loop. -/
def findLoopFuel {n : Nat} (deps : Fin n → List (Fin n)) :
    Nat → List (Fin n) → Finset (Fin n) → Option (Finset (Fin n))
  | 0, _, _ => none
  | _ + 1, [], found => some found
  | fuel + 1, cur :: rest, found =>
    if cur ∈ found then findLoopFuel deps fuel rest found
    else findLoopFuel deps fuel ((deps cur).reverse ++ rest) (insert cur found)

/-- Models `_FindAllProjectEntries(main_entries)`. -/
def _FindAllProjectEntries {n : Nat} (deps : Fin n → List (Fin n))
    (roots : List (Fin n)) : Finset (Fin n) :=
  findLoop deps roots ∅

/-- One dependency edge: `b` is listed in `a`'s deps_configs. -/
def depStep {n : Nat} (deps : Fin n → List (Fin n)) (a b : Fin n) : Prop :=
  b ∈ deps a

/-- Reachability from some root along dependency edges. -/
def reachable {n : Nat} (deps : Fin n → List (Fin n)) (roots : List (Fin n))
    (x : Fin n) : Prop :=
  ∃ r ∈ roots, Relation.ReflTransGen (depStep deps) r x

/-! ### Test-entry merger (`_CombineTestEntries`)

Only the fields the merger reads are modelled: the GN target string, the
optional `apk_under_test` key of the gradle block, and the
`deps_info['name']` field.  The source mutates `entry.android_test_entry`;
here each output entry is paired with that (initially absent) field. -/

/-- The slice of `_ProjectEntry` read by `_CombineTestEntries`. -/
structure PEntry where
  gn_target : String
  apk_under_test : Option String
  name : String
deriving DecidableEq

/-- The test condition of the first loop: the GN target ends in
`_test_apk__apk` and the gradle block has an `apk_under_test` key. -/
def isTestApk (e : PEntry) : Bool :=
  strEndsWith e.gn_target "_test_apk__apk" && e.apk_under_test.isSome

/-- `entry.Gradle()['apk_under_test']` (only read under `isTestApk`). -/
def apkName (e : PEntry) : String := e.apk_under_test.getD ""

/-- Python dict assignment `d[k] = v`: overwrite in place, else append. -/
def dictInsert (d : List (String × PEntry)) (k : String) (v : PEntry) :
    List (String × PEntry) :=
  if d.any (fun kv => kv.1 == k) then
    d.map (fun kv => if kv.1 == k then (k, v) else kv)
  else d ++ [(k, v)]

/-- Python dict lookup (`k in d` / `d[k]`). -/
def dictLookup (d : List (String × PEntry)) (k : String) : Option PEntry :=
  (d.find? (fun kv => kv.1 == k)).map (fun kv => kv.2)

/-- Python `del d[k]`. -/
def dictErase (d : List (String × PEntry)) (k : String) : List (String × PEntry) :=
  d.filter (fun kv => !(kv.1 == k))

/-- First loop of `_CombineTestEntries`: route test entries into
`android_test_entries` (keyed by the claimed under-test name, later
assignments overwriting earlier ones) and every other entry into
`combined_entries` in order. -/
def combineFirstPass (d : List (String × PEntry)) :
    List PEntry → List PEntry × List (String × PEntry)
  | [] => ([], d)
  | e :: rest =>
    if isTestApk e then combineFirstPass (dictInsert d (apkName e) e) rest
    else
      let (c, d') := combineFirstPass d rest
      (e :: c, d')

/-- Second loop of `_CombineTestEntries`: a combined entry whose
`deps_info['name']` has a pending test entry claims it (and the binding is
deleted); the pairing records the `android_test_entry` assignment. -/
def combineSecondPass (d : List (String × PEntry)) :
    List PEntry → List (PEntry × Option PEntry) × List (String × PEntry)
  | [] => ([], d)
  | e :: rest =>
    match dictLookup d e.name with
    | some t =>
      let (ps, d') := combineSecondPass (dictErase d e.name) rest
      ((e, some t) :: ps, d')
    | none =>
      let (ps, d') := combineSecondPass d rest
      ((e, none) :: ps, d')

/-- Models `_CombineTestEntries(entries)`: each result member is an entry
paired with its `android_test_entry` field; unmatched test entries are
appended as standalone targets. -/
def _CombineTestEntries (entries : List PEntry) : List (PEntry × Option PEntry) :=
  let fp := combineFirstPass [] entries
  let sp := combineSecondPass fp.2 fp.1
  sp.1 ++ sp.2.map (fun kv => (kv.2, none))

/-! ### Identity strings (`_ProjectEntry` construction and round-trip)

GN identity strings and generated paths are modelled as `List Char`. -/

/-- An identity string, as its character list. -/
abbrev IdStr := List Char

/-- Character list of a string literal. -/
def strL (s : String) : IdStr := s.toList

/-- Python `str.replace(':', os.path.sep)` (single-character patterns). -/
def replaceColonSlash (s : IdStr) : IdStr :=
  s.map (fun c => if c = ':' then '/' else c)

/-- `str.rstrip('/')`. -/
def rstripSlash (s : IdStr) : IdStr :=
  (s.reverse.dropWhile (fun c => c = '/')).reverse

/-- Models `os.path.split`: split at the last `/`; the head keeps its
trailing slashes only when empty or made of slashes alone. -/
def splitPath (s : IdStr) : IdStr × IdStr :=
  let tl := (s.reverse.takeWhile (fun c => c ≠ '/')).reverse
  let hd := s.take (s.length - tl.length)
  if hd.isEmpty ∨ hd.all (fun c => c = '/') then (hd, tl) else (rstripSlash hd, tl)

/-- Models `os.path.basename`. -/
def basenameC (s : IdStr) : IdStr := (splitPath s).2

/-- `l` starts with `pre`. -/
def startsWithL (s pre : IdStr) : Bool := s.take pre.length == pre

/-- `l` ends with `suf`. -/
def endsWithL (s suf : IdStr) : Bool := s.drop (s.length - suf.length) == suf

/-- The identity of a project entry (`_ProjectEntry._gn_target`); equality
and hashing of entries use only this field. -/
structure ProjEntry where
  gn_target : IdStr
deriving DecidableEq

/-- Models `_ProjectEntry.__init__(gn_target)`: the identity must start with
`//` (the assert is modelled as `none`), and a name without an explicit
`:target` part gets `:basename` appended. -/
def fromName (gn : IdStr) : Option ProjEntry :=
  if startsWithL gn (strL "//") then
    if ':' ∈ gn then some ⟨gn⟩
    else some ⟨gn ++ ':' :: basenameC gn⟩
  else none

/-- `_ProjectEntry.NinjaTarget()`: strip the leading `//`. -/
def ninjaTarget (e : ProjEntry) : IdStr := e.gn_target.drop 2

/-- `_ProjectEntry.GradleSubdir()`: the ninja target with `:` replaced by
the path separator. -/
def GradleSubdir (e : ProjEntry) : IdStr := replaceColonSlash (ninjaTarget e)

/-- The `gen/<subdir>.build_config` path of an entry's descriptor. -/
def buildConfigPath (e : ProjEntry) : IdStr :=
  strL "gen/" ++ GradleSubdir e ++ strL ".build_config"

/-- Models `_ProjectEntry.FromBuildConfigPath(path)`: require the
`gen/<subdir>.build_config` shape (the assert is modelled as `none`), strip
prefix and suffix, split the subdir at its last separator and rebuild
`//dir:name`. -/
def FromBuildConfigPath (path : IdStr) : Option ProjEntry :=
  if startsWithL path (strL "gen/") ∧ endsWithL path (strL ".build_config") then
    let subdir := (path.drop 4).take (path.length - 17)
    let dn := splitPath subdir
    fromName (strL "//" ++ dn.1 ++ ':' :: dn.2)
  else none

/-! ### Manifest synthesis (`_ProjectContextGenerator._GenCustomManifest`)

The jinja renderer is abstracted as a function of the two template
variables; writes and error logs are returned as data. -/

/-- `_DEFAULT_ANDROID_MANIFEST_PATH`, the checked-in fallback manifest. -/
def defaultManifestPath : Pth :=
  ["DIR_SOURCE_ROOT", "build", "android", "AndroidManifest.xml"]

/-- Outcome of `_GenCustomManifest`: the manifest path returned to the
caller, the files written, and the number of `logging.error` calls. -/
structure ManifestResult where
  path : Pth
  written : List (Pth × String)
  errorCount : Nat
deriving DecidableEq

/-- Models `_GenCustomManifest(entry)`: with no declared resource package,
or more than one, log an error and fall back to the default manifest
without writing anything; with exactly one, render the manifest template
with that package and the SDK version and write it into the entry's output
directory. -/
def _GenCustomManifest (render : String → String → String) (entryOutputDir : Pth)
    (sdkVersion : String) (resourcePackages : List String) : ManifestResult :=
  let outputFile := entryOutputDir ++ ["AndroidManifest.xml"]
  if resourcePackages.isEmpty then
    { path := defaultManifestPath, written := [], errorCount := 1 }
  else if 1 < resourcePackages.length then
    { path := defaultManifestPath, written := [], errorCount := 1 }
  else
    let data := render (resourcePackages.headD "") sdkVersion
    { path := outputFile, written := [(outputFile, data)], errorCount := 0 }

/-! ### Per-entry gradle file generation and the writer loop -/

/-- The slice of an entry read by `_GenerateGradleFile` and the writer loop
of `main`. -/
structure GEntry where
  gn_target : IdStr
  targetType : String
  isPrebuilt : Bool
  gradleTreatAsPrebuilt : Bool
  requiresAndroid : Bool
  mainClass : String
deriving DecidableEq

/-- The target kinds the writer loop of `main` does not skip. -/
def qualifyingKinds : List String := ["android_apk", "java_library", "java_binary"]

/-- Models `_GenerateGradleFile(entry, ...)`: `None` for prebuilt (or
treat-as-prebuilt) java libraries and for every kind outside apk / library /
binary; otherwise render the template selected by the computed target type
(the jinja renderer is abstracted as `render` of the template-name stem and
the entry). -/
def _GenerateGradleFile (render : String → GEntry → String) (e : GEntry) :
    Option String :=
  if e.targetType = "android_apk" then some (render "android" e)
  else if e.targetType = "java_library" then
    if e.isPrebuilt || e.gradleTreatAsPrebuilt then none
    else if e.requiresAndroid then some (render "android" e)
    else some (render "java" e)
  else if e.targetType = "java_binary" then
    if e.mainClass = "org.chromium.testing.local.JunitTestMain" then
      some (render "android" e)
    else some (render "java" e)
  else none

/-- `os.path.join(generator.EntryOutputDir(entry), 'build.gradle')`. -/
def entryBuildGradlePath (projectDir : IdStr) (e : GEntry) : IdStr :=
  projectDir ++ '/' :: replaceColonSlash (e.gn_target.drop 2) ++ '/' :: strL "build.gradle"

/-- The writer loop of `main`: skip entries whose type is not a qualifying
kind, call `_GenerateGradleFile`, and on truthy data (Python: non-`None`
and nonempty) record the entry in `project_entries` and write its
`build.gradle`.  Returns the written files and `project_entries` (the list
the settings.gradle module list is generated from). -/
def writerLoop (render : String → GEntry → String) (projectDir : IdStr) :
    List GEntry → List (IdStr × String) × List GEntry
  | [] => ([], [])
  | e :: rest =>
    let tail := writerLoop render projectDir rest
    if e.targetType ∈ qualifyingKinds then
      match _GenerateGradleFile render e with
      | some data =>
        if data = "" then tail
        else ((entryBuildGradlePath projectDir e, data) :: tail.1, e :: tail.2)
      | none => tail
    else tail

/-! ### `_RebasePath` -/

/-- The dynamically-typed argument of `_RebasePath`: `None`, a string, or a
(possibly nested) list. -/
inductive PyArg where
  | pynone : PyArg
  | pystr : String → PyArg
  | pylist : List PyArg → PyArg

/-- The dynamically-typed result of `_RebasePath`: a string or a list. -/
inductive PyVal where
  | pystr : String → PyVal
  | pylist : List PyVal → PyVal

/-- The OS path primitives `_RebasePath` delegates to, plus
`constants.GetOutDirectory()`; all are external to the script. -/
structure OsOps where
  outDirectory : String
  abspath : String → String
  relpath : String → String → String
  join : String → String → String

/-- The single-string branch of `_RebasePath`: default `old_cwd` to the
output directory, make it absolute, then either rebase onto a truthy
`new_cwd` via relpath or return the absolute joined path. -/
def rebaseOne (os : OsOps) (s : String) (newCwd oldCwd : Option String) : String :=
  let old := match oldCwd with
    | none => os.outDirectory
    | some o => o
  let oldAbs := os.abspath old
  match newCwd with
  | some n =>
    if n = "" then os.abspath (os.join oldAbs s)
    else os.relpath (os.join oldAbs s) (os.abspath n)
  | none => os.abspath (os.join oldAbs s)

/-- Models `_RebasePath(path_or_list, new_cwd, old_cwd)`: `None` becomes the
empty list, a list is rebased element-wise, a string goes through
`rebaseOne`. -/
def _RebasePath (os : OsOps) (newCwd oldCwd : Option String) : PyArg → PyVal
  | .pynone => .pylist []
  | .pystr s => .pystr (rebaseOne os s newCwd oldCwd)
  | .pylist ps => .pylist (ps.attach.map (fun q => _RebasePath os newCwd oldCwd q.1))
termination_by a => sizeOf a
decreasing_by
have := List.sizeOf_lt_of_mem q.2
simp only [PyArg.pylist.sizeOf_spec]
omega

/-! ### Example graphs for the walker claims -/

/-- The spec's example graph: A depends on B and C, B depends on C. -/
def deps3 : Fin 3 → List (Fin 3) :=
  fun i => if i = 0 then [1, 2] else if i = 1 then [2] else []

/-- A two-node dependency cycle A→B→A. -/
def cycDeps : Fin 2 → List (Fin 2) := fun i => if i = 0 then [1] else [0]

/-! ### Auxiliary path functions used to reason about `relpathP` -/

/-- The number of leading `..` components of a relative path. -/
def countLeadDots : Pth → Nat
  | x :: rest => if x = ".." then countLeadDots rest + 1 else 0
  | [] => 0

/-- Left inverse of `relpathP · base` on dot-free paths: resolve a relative
path against its base. -/
def recoverP (base o : Pth) : Pth :=
  if o = ["."] then base
  else base.take (base.length - countLeadDots o) ++ o.drop (countLeadDots o)

/-! ### Helper lemmas for the walker -/

theorem findLoop_agrees {n : Nat} (deps : Fin n → List (Fin n)) :
    ∀ (fuel : Nat) (q : List (Fin n)) (f r : Finset (Fin n)),
      findLoopFuel deps fuel q f = some r → findLoop deps q f = r := by
  intro fuel
  induction fuel with
  | zero => intro q f r h; simp [findLoopFuel] at h
  | succ fuel ih =>
    intro q f r h
    match q with
    | [] =>
      simp [findLoopFuel] at h
      simp [findLoop, h]
    | cur :: rest =>
      by_cases hc : cur ∈ f
      · rw [findLoop]
        simp only [findLoopFuel, if_pos hc] at h
        simp [if_pos hc, ih _ _ _ h]
      · rw [findLoop]
        simp only [findLoopFuel, if_neg hc] at h
        simp [if_neg hc, ih _ _ _ h]

theorem findLoopFuel_exists {n : Nat} (deps : Fin n → List (Fin n)) :
    ∀ (c : Nat) (q : List (Fin n)) (f : Finset (Fin n)),
      (Finset.univ \ f).card ≤ c →
      ∃ fuel r, findLoopFuel deps fuel q f = some r := by
  intro c
  induction c with
  | zero =>
    intro q f hc
    have hall : ∀ x : Fin n, x ∈ f := by
      intro x
      by_contra hx
      have hmem : x ∈ Finset.univ \ f := Finset.mem_sdiff.mpr ⟨Finset.mem_univ x, hx⟩
      have := Finset.card_pos.mpr ⟨x, hmem⟩
      omega
    clear hc
    induction q with
    | nil => exact ⟨1, f, rfl⟩
    | cons cur rest ihq =>
      obtain ⟨fuel, r, h⟩ := ihq
      exact ⟨fuel + 1, r, by simp [findLoopFuel, hall cur, h]⟩
  | succ c ihc =>
    intro q f hc
    induction q with
    | nil => exact ⟨1, f, rfl⟩
    | cons cur rest ihq =>
      by_cases hm : cur ∈ f
      · obtain ⟨fuel, r, h⟩ := ihq
        exact ⟨fuel + 1, r, by simp [findLoopFuel, hm, h]⟩
      · have hcard : (Finset.univ \ insert cur f).card ≤ c := by
          rw [Finset.sdiff_insert]
          have hmem : cur ∈ Finset.univ \ f := Finset.mem_sdiff.mpr ⟨Finset.mem_univ cur, hm⟩
          have := Finset.card_erase_lt_of_mem hmem
          omega
        obtain ⟨fuel, r, h⟩ := ihc ((deps cur).reverse ++ rest) (insert cur f) hcard
        exact ⟨fuel + 1, r, by simp [findLoopFuel, hm, h]⟩

theorem findLoopFuel_found_subset {n : Nat} (deps : Fin n → List (Fin n)) :
    ∀ (fuel : Nat) (q : List (Fin n)) (f r : Finset (Fin n)),
      findLoopFuel deps fuel q f = some r → f ⊆ r := by
  intro fuel
  induction fuel with
  | zero => intro q f r h; simp [findLoopFuel] at h
  | succ fuel ih =>
    intro q f r h
    match q with
    | [] =>
      simp [findLoopFuel] at h
      exact h ▸ fun x hx => hx
    | cur :: rest =>
      by_cases hc : cur ∈ f
      · simp only [findLoopFuel, if_pos hc] at h
        exact ih _ _ _ h
      · simp only [findLoopFuel, if_neg hc] at h
        exact fun x hx => ih _ _ _ h (Finset.mem_insert_of_mem hx)

theorem findLoopFuel_scan_subset {n : Nat} (deps : Fin n → List (Fin n)) :
    ∀ (fuel : Nat) (q : List (Fin n)) (f r : Finset (Fin n)),
      findLoopFuel deps fuel q f = some r → ∀ x ∈ q, x ∈ r := by
  intro fuel
  induction fuel with
  | zero => intro q f r h; simp [findLoopFuel] at h
  | succ fuel ih =>
    intro q f r h x hx
    match q with
    | cur :: rest =>
      rcases List.mem_cons.mp hx with rfl | hx'
      · by_cases hc : x ∈ f
        · simp only [findLoopFuel, if_pos hc] at h
          exact findLoopFuel_found_subset deps _ _ _ _ h hc
        · simp only [findLoopFuel, if_neg hc] at h
          exact findLoopFuel_found_subset deps _ _ _ _ h (Finset.mem_insert_self x f)
      · by_cases hc : cur ∈ f
        · simp only [findLoopFuel, if_pos hc] at h
          exact ih _ _ _ h x hx'
        · simp only [findLoopFuel, if_neg hc] at h
          exact ih _ _ _ h x (List.mem_append_right _ hx')

theorem findLoopFuel_sound {n : Nat} (deps : Fin n → List (Fin n)) (P : Fin n → Prop)
    (hP : ∀ a, P a → ∀ b ∈ deps a, P b) :
    ∀ (fuel : Nat) (q : List (Fin n)) (f r : Finset (Fin n)),
      findLoopFuel deps fuel q f = some r →
      (∀ x ∈ q, P x) → (∀ x ∈ f, P x) → ∀ x ∈ r, P x := by
  intro fuel
  induction fuel with
  | zero => intro q f r h; simp [findLoopFuel] at h
  | succ fuel ih =>
    intro q f r h hq hf
    match q with
    | [] =>
      simp [findLoopFuel] at h
      exact h ▸ hf
    | cur :: rest =>
      by_cases hc : cur ∈ f
      · simp only [findLoopFuel, if_pos hc] at h
        exact ih _ _ _ h (fun x hx => hq x (List.mem_cons_of_mem _ hx)) hf
      · simp only [findLoopFuel, if_neg hc] at h
        refine ih _ _ _ h ?_ ?_
        · intro x hx
          rcases List.mem_append.mp hx with hx' | hx'
          · exact hP cur (hq cur (List.mem_cons_self cur rest)) x (List.mem_reverse.mp hx')
          · exact hq x (List.mem_cons_of_mem _ hx')
        · intro x hx
          rcases Finset.mem_insert.mp hx with rfl | hx'
          · exact hq x (List.mem_cons_self x rest)
          · exact hf x hx'

theorem findLoopFuel_closed {n : Nat} (deps : Fin n → List (Fin n)) :
    ∀ (fuel : Nat) (q : List (Fin n)) (f r : Finset (Fin n)),
      findLoopFuel deps fuel q f = some r →
      (∀ x ∈ f, ∀ d ∈ deps x, d ∈ f ∨ d ∈ q) →
      ∀ x ∈ r, ∀ d ∈ deps x, d ∈ r := by
  intro fuel
  induction fuel with
  | zero => intro q f r h; simp [findLoopFuel] at h
  | succ fuel ih =>
    intro q f r h hinv
    match q with
    | [] =>
      simp [findLoopFuel] at h
      subst h
      intro x hx d hd
      rcases hinv x hx d hd with h' | h'
      · exact h'
      · simp at h'
    | cur :: rest =>
      by_cases hc : cur ∈ f
      · simp only [findLoopFuel, if_pos hc] at h
        refine ih _ _ _ h ?_
        intro x hx d hd
        rcases hinv x hx d hd with h' | h'
        · exact Or.inl h'
        · rcases List.mem_cons.mp h' with rfl | h''
          · exact Or.inl hc
          · exact Or.inr h''
      · simp only [findLoopFuel, if_neg hc] at h
        refine ih _ _ _ h ?_
        intro x hx d hd
        rcases Finset.mem_insert.mp hx with rfl | hx'
        · exact Or.inr (List.mem_append_left _ (List.mem_reverse.mpr hd))
        · rcases hinv x hx' d hd with h' | h'
          · exact Or.inl (Finset.mem_insert_of_mem h')
          · rcases List.mem_cons.mp h' with rfl | h''
            · exact Or.inl (Finset.mem_insert_self d f)
            · exact Or.inr (List.mem_append_right _ h'')

theorem mem_findAll_iff {n : Nat} (deps : Fin n → List (Fin n))
    (roots : List (Fin n)) (x : Fin n) :
    x ∈ _FindAllProjectEntries deps roots ↔ reachable deps roots x := by
  obtain ⟨fuel, r, hF⟩ :=
    findLoopFuel_exists deps (Finset.univ \ (∅ : Finset (Fin n))).card roots ∅ le_rfl
  have hL : _FindAllProjectEntries deps roots = r := findLoop_agrees deps _ _ _ _ hF
  rw [hL]
  constructor
  · intro hx
    refine findLoopFuel_sound deps (reachable deps roots) ?_ fuel roots ∅ r hF ?_ ?_ x hx
    · rintro a ⟨rt, hrt, hr⟩ b hb
      exact ⟨rt, hrt, hr.tail hb⟩
    · intro y hy
      exact ⟨y, hy, Relation.ReflTransGen.refl⟩
    · intro y hy
      simp at hy
  · rintro ⟨rt, hrt, hr⟩
    have hclosed := findLoopFuel_closed deps fuel roots ∅ r hF (by intro y hy; simp at hy)
    have hroot : rt ∈ r := findLoopFuel_scan_subset deps fuel roots ∅ r hF rt hrt
    induction hr with
    | refl => exact hroot
    | tail _ hstep ih => exact hclosed _ ih _ hstep

/-- C4: `_FindAllProjectEntries(roots)` returns exactly the set of entries
reachable from the roots via deps_configs edges — a characterization that
does not mention the traversal order, so the result is deduplicated and
order-independent; in particular, expanding `{A}` where A depends on
`{B, C}` and B depends on `{C}` yields exactly `{A, B, C}`. -/
theorem claim4_theorem :
    (∀ (n : Nat) (deps : Fin n → List (Fin n)) (roots : List (Fin n)) (x : Fin n),
       x ∈ _FindAllProjectEntries deps roots ↔ reachable deps roots x) ∧
    _FindAllProjectEntries deps3 [0] = ({0, 1, 2} : Finset (Fin 3)) := by
  constructor
  · exact fun n deps roots x => mem_findAll_iff deps roots x
  · have h : _FindAllProjectEntries deps3 [0] = _ :=
      findLoop_agrees deps3 10 [0] ∅ _ rfl
    rw [h]
    apply Finset.ext
    decide

/-- C5: the worklist traversal terminates on every finite dependency graph,
cyclic ones included: for every graph some finite fuel lets the
step-indexed loop finish (the found-set membership check skips any identity
already seen, and an identity is marked found before its own dependencies
are pushed), and on the concrete cycle A→B→A the traversal computes
`{A, B}`. -/
theorem claim5_theorem :
    (∀ (n : Nat) (deps : Fin n → List (Fin n)) (q : List (Fin n))
       (f : Finset (Fin n)), ∃ fuel r, findLoopFuel deps fuel q f = some r) ∧
    (∃ r, findLoopFuel cycDeps 8 [0] ∅ = some r ∧
       _FindAllProjectEntries cycDeps [0] = r ∧ r = ({0, 1} : Finset (Fin 2))) := by
  constructor
  · intro n deps q f
    exact findLoopFuel_exists deps (Finset.univ \ f).card q f le_rfl
  · refine ⟨_, rfl, findLoop_agrees cycDeps 8 [0] ∅ _ rfl, ?_⟩
    apply Finset.ext
    decide

/-! ### Claims about `_RebasePath` and `_GenCustomManifest` -/

/-- C10: for every choice of `new_cwd` and `old_cwd`, `_RebasePath` maps the
`None` argument to the empty list (so an absent descriptor field yields `[]`
rather than an error), and maps a list argument to the element-wise rebased
list in the same order. -/
theorem claim10_theorem :
    ∀ (os : OsOps) (newCwd oldCwd : Option String),
      _RebasePath os newCwd oldCwd PyArg.pynone = PyVal.pylist [] ∧
      ∀ ps : List PyArg,
        _RebasePath os newCwd oldCwd (PyArg.pylist ps) =
          PyVal.pylist (ps.map (_RebasePath os newCwd oldCwd)) := by
  intro os newCwd oldCwd
  constructor
  · rw [_RebasePath]
  · intro ps
    rw [_RebasePath]
    rw [List.attach_map_coe ps (_RebasePath os newCwd oldCwd)]

/-- C7: when an entry needs a synthesized manifest but declares no resource
package, or more than one, `_GenCustomManifest` logs an error and returns
the default manifest path, writing nothing — a value, not an exception, so
generation continues; only with exactly one declared package is the
manifest rendered and written into the entry's output directory. -/
theorem claim7_theorem :
    ∀ (render : String → String → String) (outDir : Pth) (sdk : String)
      (pkgs : List String),
      ((pkgs = [] ∨ 1 < pkgs.length) →
        _GenCustomManifest render outDir sdk pkgs =
          { path := defaultManifestPath, written := [], errorCount := 1 }) ∧
      (pkgs.length = 1 →
        _GenCustomManifest render outDir sdk pkgs =
          { path := outDir ++ ["AndroidManifest.xml"],
            written := [(outDir ++ ["AndroidManifest.xml"],
                         render (pkgs.headD "") sdk)],
            errorCount := 0 }) := by
  intro render outDir sdk pkgs
  constructor
  · intro h
    rcases h with rfl | h
    · rfl
    · match pkgs, h with
      | p :: q :: t, _ => simp [_GenCustomManifest]
  · intro h
    match pkgs, h with
    | [p], _ => simp [_GenCustomManifest]

/-- Closed instances of `claim7_theorem`: the empty, ambiguous and singleton
resource-package cases at concrete inputs. -/
theorem claim7_witness :
    _GenCustomManifest (fun p s => String.append p s) ["o"] "26" [] =
      { path := defaultManifestPath, written := [], errorCount := 1 } ∧
    _GenCustomManifest (fun p s => String.append p s) ["o"] "26" ["a", "b"] =
      { path := defaultManifestPath, written := [], errorCount := 1 } ∧
    _GenCustomManifest (fun p s => String.append p s) ["o"] "26" ["a"] =
      { path := ["o", "AndroidManifest.xml"],
        written := [(["o", "AndroidManifest.xml"], String.append "a" "26")],
        errorCount := 0 } :=
  ⟨( claim7_theorem (fun p s => String.append p s) ["o"] "26" []).1 (Or.inl rfl),
   ( claim7_theorem (fun p s => String.append p s) ["o"] "26" ["a", "b"]).1
     (Or.inr (by decide)),
   ( claim7_theorem (fun p s => String.append p s) ["o"] "26" ["a"]).2 rfl⟩

/-! ### Helper lemmas for the test-entry merger -/

/-- The keys of a modelled Python dict are distinct. -/
def keysNodup (d : List (String × PEntry)) : Prop := (d.map Prod.fst).Nodup

theorem dictInsert_self_mem (d : List (String × PEntry)) (k : String) (v : PEntry) :
    (k, v) ∈ dictInsert d k v := by
  unfold dictInsert
  by_cases h : d.any (fun kv => kv.1 == k)
  · rw [if_pos h]
    obtain ⟨kv, hkv, hbeq⟩ := List.any_eq_true.mp h
    refine List.mem_map.mpr ⟨kv, hkv, ?_⟩
    simp only [beq_iff_eq] at hbeq
    simp [hbeq]
  · rw [if_neg h]
    exact List.mem_append_right _ (by simp)

theorem dictInsert_mem_of_ne (d : List (String × PEntry)) (k : String) (x : PEntry)
    (k' : String) (v : PEntry) (hne : k ≠ k') (h : (k, x) ∈ d) :
    (k, x) ∈ dictInsert d k' v := by
  unfold dictInsert
  by_cases hany : d.any (fun kv => kv.1 == k')
  · rw [if_pos hany]
    refine List.mem_map.mpr ⟨(k, x), h, ?_⟩
    simp [hne]
  · rw [if_neg hany]
    exact List.mem_append_left _ h

theorem dictInsert_mem_same (d : List (String × PEntry)) (k : String) (x : PEntry)
    (h : (k, x) ∈ d) : (k, x) ∈ dictInsert d k x := by
  unfold dictInsert
  have hany : d.any (fun kv => kv.1 == k) = true :=
    List.any_eq_true.mpr ⟨(k, x), h, by simp⟩
  rw [if_pos hany]
  exact List.mem_map.mpr ⟨(k, x), h, by simp⟩

theorem dictInsert_mem_elim (d : List (String × PEntry)) (k' : String) (v : PEntry)
    (k : String) (x : PEntry) (h : (k, x) ∈ dictInsert d k' v) :
    (k, x) ∈ d ∨ (k = k' ∧ x = v) := by
  unfold dictInsert at h
  by_cases hany : d.any (fun kv => kv.1 == k')
  · rw [if_pos hany] at h
    obtain ⟨kv, hkv, heq⟩ := List.mem_map.mp h
    by_cases hk : kv.1 == k'
    · rw [if_pos hk] at heq
      right
      exact ⟨(Prod.mk.injEq .. ▸ heq).1.symm, (Prod.mk.injEq .. ▸ heq).2.symm⟩
    · rw [if_neg hk] at heq
      exact Or.inl (heq ▸ hkv)
  · rw [if_neg hany] at h
    rcases List.mem_append.mp h with h' | h'
    · exact Or.inl h'
    · simp at h'
      exact Or.inr ⟨h'.1, h'.2⟩

theorem dictInsert_keysNodup (d : List (String × PEntry)) (k : String) (v : PEntry)
    (h : keysNodup d) : keysNodup (dictInsert d k v) := by
  unfold dictInsert keysNodup
  by_cases hany : d.any (fun kv => kv.1 == k)
  · rw [if_pos hany]
    have hmap : (d.map (fun kv => if kv.1 == k then (k, v) else kv)).map Prod.fst
        = d.map Prod.fst := by
      rw [List.map_map]
      apply List.map_congr_left
      intro kv _
      by_cases hkv : kv.1 == k
      · simp only [Function.comp_apply, if_pos hkv]
        simp only [beq_iff_eq] at hkv
        simp [hkv]
      · simp only [beq_iff_eq] at hkv
        simp [Function.comp_apply, hkv]
    rw [hmap]
    exact h
  · rw [if_neg hany]
    rw [List.map_append]
    have hk : k ∉ d.map Prod.fst := by
      intro hmem
      obtain ⟨kv, hkv, hfst⟩ := List.mem_map.mp hmem
      apply hany
      exact List.any_eq_true.mpr ⟨kv, hkv, by simp [hfst]⟩
    have hdisj : List.Disjoint (d.map Prod.fst) [k] := by
      intro a ha hb
      simp only [List.mem_singleton] at hb
      subst hb
      exact hk ha
    simp only [List.map_cons, List.map_nil]
    exact List.Nodup.append h (List.nodup_singleton k) hdisj

theorem dictErase_subset (d : List (String × PEntry)) (k' k : String) (t : PEntry)
    (h : (k, t) ∈ dictErase d k') : (k, t) ∈ d :=
  List.mem_of_mem_filter h

theorem dictErase_mem_of_ne (d : List (String × PEntry)) (k' k : String) (t : PEntry)
    (hne : k ≠ k') (h : (k, t) ∈ d) : (k, t) ∈ dictErase d k' :=
  List.mem_filter.mpr ⟨h, by simp [hne]⟩

theorem dictErase_not_mem (d : List (String × PEntry)) (k : String) (t : PEntry) :
    (k, t) ∉ dictErase d k := by
  intro h
  have := (List.mem_filter.mp h).2
  simp at this

theorem dictErase_keysNodup (d : List (String × PEntry)) (k : String)
    (h : keysNodup d) : keysNodup (dictErase d k) := by
  unfold keysNodup at h ⊢
  exact h.sublist (List.Sublist.map Prod.fst (List.filter_sublist d))

theorem dictLookup_mem (d : List (String × PEntry)) (k : String) (t : PEntry)
    (h : dictLookup d k = some t) : (k, t) ∈ d := by
  unfold dictLookup at h
  obtain ⟨kv, hfind, ht⟩ := Option.map_eq_some'.mp h
  have hmem := List.mem_of_find?_eq_some hfind
  have hpred := List.find?_some hfind
  simp only [beq_iff_eq] at hpred
  have : kv = (k, t) := by
    cases kv
    simp_all
  exact this ▸ hmem

theorem dictLookup_ne_none_of_mem (d : List (String × PEntry)) (k : String)
    (t : PEntry) (h : (k, t) ∈ d) : dictLookup d k ≠ none := by
  unfold dictLookup
  intro hcon
  have hfind : List.find? (fun kv => kv.1 == k) d = none := Option.map_eq_none'.mp hcon
  have := List.find?_eq_none.mp hfind (k, t) h
  simp at this

theorem mem_keysNodup_unique (d : List (String × PEntry)) (h : keysNodup d)
    (k : String) (t t' : PEntry) (h1 : (k, t) ∈ d) (h2 : (k, t') ∈ d) : t = t' := by
  induction d with
  | nil => simp at h1
  | cons kv rest ih =>
    unfold keysNodup at h
    simp only [List.map_cons, List.nodup_cons] at h
    rcases List.mem_cons.mp h1 with h1' | h1' <;> rcases List.mem_cons.mp h2 with h2' | h2'
    · rw [← h1'] at h2'
      exact (Prod.mk.injEq .. ▸ h2').2.symm
    · exfalso
      apply h.1
      rw [← h1']
      exact List.mem_map.mpr ⟨(k, t'), h2', rfl⟩
    · exfalso
      apply h.1
      rw [← h2']
      exact List.mem_map.mpr ⟨(k, t), h1', rfl⟩
    · exact ih h.2 h1' h2'

theorem dictLookup_eq_of_mem_nodup (d : List (String × PEntry)) (h : keysNodup d)
    (k : String) (t : PEntry) (hm : (k, t) ∈ d) : dictLookup d k = some t := by
  cases hl : dictLookup d k with
  | none => exact absurd hl (dictLookup_ne_none_of_mem d k t hm)
  | some t' =>
    have := mem_keysNodup_unique d h k t t' hm (dictLookup_mem d k t' hl)
    rw [this]

theorem combineFirstPass_mem_combined (l : List PEntry) :
    ∀ (d : List (String × PEntry)) (e : PEntry), e ∈ l → isTestApk e = false →
      e ∈ (combineFirstPass d l).1 := by
  induction l with
  | nil => intro d e he; simp at he
  | cons a rest ih =>
    intro d e he hnot
    rcases List.mem_cons.mp he with rfl | he'
    · rw [combineFirstPass, if_neg (by simp [hnot])]
      exact List.mem_cons_self _ _
    · by_cases ha : isTestApk a
      · rw [combineFirstPass, if_pos ha]
        exact ih _ e he' hnot
      · rw [combineFirstPass, if_neg ha]
        exact List.mem_cons_of_mem _ (ih _ e he' hnot)

theorem combineFirstPass_combined_src (l : List PEntry) :
    ∀ (d : List (String × PEntry)) (x : PEntry), x ∈ (combineFirstPass d l).1 →
      x ∈ l ∧ isTestApk x = false := by
  induction l with
  | nil => intro d x hx; simp [combineFirstPass] at hx
  | cons a rest ih =>
    intro d x hx
    by_cases ha : isTestApk a
    · rw [combineFirstPass, if_pos ha] at hx
      obtain ⟨h1, h2⟩ := ih _ x hx
      exact ⟨List.mem_cons_of_mem _ h1, h2⟩
    · rw [combineFirstPass, if_neg ha] at hx
      rcases List.mem_cons.mp hx with rfl | hx'
      · exact ⟨List.mem_cons_self _ _, by simpa using ha⟩
      · obtain ⟨h1, h2⟩ := ih _ x hx'
        exact ⟨List.mem_cons_of_mem _ h1, h2⟩

theorem combineFirstPass_dict_src (l : List PEntry) :
    ∀ (d : List (String × PEntry)) (k : String) (t : PEntry),
      (k, t) ∈ (combineFirstPass d l).2 →
      (k, t) ∈ d ∨ (t ∈ l ∧ isTestApk t = true ∧ apkName t = k) := by
  induction l with
  | nil => intro d k t ht; exact Or.inl ht
  | cons a rest ih =>
    intro d k t ht
    by_cases ha : isTestApk a
    · rw [combineFirstPass, if_pos ha] at ht
      rcases ih _ k t ht with h' | h'
      · rcases dictInsert_mem_elim d (apkName a) a k t h' with h'' | ⟨rfl, rfl⟩
        · exact Or.inl h''
        · exact Or.inr ⟨List.mem_cons_self _ _, ha, rfl⟩
      · exact Or.inr ⟨List.mem_cons_of_mem _ h'.1, h'.2⟩
    · rw [combineFirstPass, if_neg ha] at ht
      rcases ih _ k t ht with h' | h'
      · exact Or.inl h'
      · exact Or.inr ⟨List.mem_cons_of_mem _ h'.1, h'.2⟩

theorem combineFirstPass_dict_preserve (l : List PEntry) :
    ∀ (d : List (String × PEntry)) (k : String) (x : PEntry), (k, x) ∈ d →
      (∀ e' ∈ l, isTestApk e' = true → apkName e' = k → e' = x) →
      (k, x) ∈ (combineFirstPass d l).2 := by
  induction l with
  | nil => intro d k x hx _; exact hx
  | cons a rest ih =>
    intro d k x hx huniq
    by_cases ha : isTestApk a
    · rw [combineFirstPass, if_pos ha]
      refine ih _ k x ?_ (fun e' he' => huniq e' (List.mem_cons_of_mem _ he'))
      by_cases hk : apkName a = k
      · have : a = x := huniq a (List.mem_cons_self _ _) ha hk
        subst this
        rw [← hk]
        exact dictInsert_mem_same d (apkName a) a (hk ▸ hx)
      · exact dictInsert_mem_of_ne d k x (apkName a) a (fun h => hk h.symm) hx
    · rw [combineFirstPass, if_neg ha]
      exact ih _ k x hx (fun e' he' => huniq e' (List.mem_cons_of_mem _ he'))

theorem combineFirstPass_test_mem (l : List PEntry) :
    ∀ (d : List (String × PEntry)) (e : PEntry), e ∈ l → isTestApk e = true →
      (∀ e' ∈ l, isTestApk e' = true → apkName e' = apkName e → e' = e) →
      (apkName e, e) ∈ (combineFirstPass d l).2 := by
  induction l with
  | nil => intro d e he; simp at he
  | cons a rest ih =>
    intro d e he htest huniq
    rcases List.mem_cons.mp he with rfl | he'
    · rw [combineFirstPass, if_pos htest]
      exact combineFirstPass_dict_preserve rest _ (apkName e) e
        (dictInsert_self_mem d (apkName e) e)
        (fun e' he'' ht hk => huniq e' (List.mem_cons_of_mem _ he'') ht hk)
    · by_cases ha : isTestApk a
      · rw [combineFirstPass, if_pos ha]
        exact ih _ e he' htest
          (fun e' he'' ht hk => huniq e' (List.mem_cons_of_mem _ he'') ht hk)
      · rw [combineFirstPass, if_neg ha]
        exact ih _ e he' htest
          (fun e' he'' ht hk => huniq e' (List.mem_cons_of_mem _ he'') ht hk)

theorem combineFirstPass_keysNodup (l : List PEntry) :
    ∀ (d : List (String × PEntry)), keysNodup d → keysNodup (combineFirstPass d l).2 := by
  induction l with
  | nil => intro d hd; exact hd
  | cons a rest ih =>
    intro d hd
    by_cases ha : isTestApk a
    · rw [combineFirstPass, if_pos ha]
      exact ih _ (dictInsert_keysNodup d (apkName a) a hd)
    · rw [combineFirstPass, if_neg ha]
      exact ih _ hd

theorem combineSecondPass_cons_some (d : List (String × PEntry)) (e : PEntry)
    (rest : List PEntry) (t : PEntry) (hl : dictLookup d e.name = some t) :
    combineSecondPass d (e :: rest) =
      ((e, some t) :: (combineSecondPass (dictErase d e.name) rest).1,
       (combineSecondPass (dictErase d e.name) rest).2) := by
  simp only [combineSecondPass, hl]

theorem combineSecondPass_cons_none (d : List (String × PEntry)) (e : PEntry)
    (rest : List PEntry) (hl : dictLookup d e.name = none) :
    combineSecondPass d (e :: rest) =
      ((e, none) :: (combineSecondPass d rest).1, (combineSecondPass d rest).2) := by
  simp only [combineSecondPass, hl]

theorem combineSecondPass_pairs_cover (l : List PEntry) :
    ∀ (d : List (String × PEntry)) (e : PEntry), e ∈ l →
      ∃ o, (e, o) ∈ (combineSecondPass d l).1 := by
  induction l with
  | nil => intro d e he; simp at he
  | cons a rest ih =>
    intro d e he
    cases hl : dictLookup d a.name with
    | some t =>
      rw [combineSecondPass_cons_some d a rest t hl]
      rcases List.mem_cons.mp he with rfl | he'
      · exact ⟨some t, List.mem_cons_self _ _⟩
      · obtain ⟨o, ho⟩ := ih (dictErase d a.name) e he'
        exact ⟨o, List.mem_cons_of_mem _ ho⟩
    | none =>
      rw [combineSecondPass_cons_none d a rest hl]
      rcases List.mem_cons.mp he with rfl | he'
      · exact ⟨none, List.mem_cons_self _ _⟩
      · obtain ⟨o, ho⟩ := ih d e he'
        exact ⟨o, List.mem_cons_of_mem _ ho⟩

theorem combineSecondPass_pairs_src (l : List PEntry) :
    ∀ (d : List (String × PEntry)) (pr : PEntry × Option PEntry),
      pr ∈ (combineSecondPass d l).1 → pr.1 ∈ l := by
  induction l with
  | nil => intro d pr hpr; simp [combineSecondPass] at hpr
  | cons a rest ih =>
    intro d pr hpr
    cases hl : dictLookup d a.name with
    | some t =>
      rw [combineSecondPass_cons_some d a rest t hl] at hpr
      rcases List.mem_cons.mp hpr with rfl | hpr'
      · exact List.mem_cons_self _ _
      · exact List.mem_cons_of_mem _ (ih _ pr hpr')
    | none =>
      rw [combineSecondPass_cons_none d a rest hl] at hpr
      rcases List.mem_cons.mp hpr with rfl | hpr'
      · exact List.mem_cons_self _ _
      · exact List.mem_cons_of_mem _ (ih _ pr hpr')

theorem combineSecondPass_dict_subset (l : List PEntry) :
    ∀ (d : List (String × PEntry)) (k : String) (t : PEntry),
      (k, t) ∈ (combineSecondPass d l).2 → (k, t) ∈ d := by
  induction l with
  | nil => intro d k t ht; exact ht
  | cons a rest ih =>
    intro d k t ht
    cases hl : dictLookup d a.name with
    | some t' =>
      rw [combineSecondPass_cons_some d a rest t' hl] at ht
      exact dictErase_subset d a.name k t (ih _ k t ht)
    | none =>
      rw [combineSecondPass_cons_none d a rest hl] at ht
      exact ih _ k t ht

theorem combineSecondPass_binding_fate (l : List PEntry) :
    ∀ (d : List (String × PEntry)) (k : String) (t : PEntry),
      (k, t) ∈ d → keysNodup d →
      (∃ pr ∈ (combineSecondPass d l).1, pr.2 = some t) ∨
        (k, t) ∈ (combineSecondPass d l).2 := by
  induction l with
  | nil => intro d k t ht _; exact Or.inr ht
  | cons a rest ih =>
    intro d k t ht hnd
    cases hl : dictLookup d a.name with
    | some t' =>
      rw [combineSecondPass_cons_some d a rest t' hl]
      by_cases hk : a.name = k
      · subst hk
        have : t' = t := by
          have := dictLookup_mem d a.name t' hl
          exact mem_keysNodup_unique d hnd a.name t' t this ht
        subst this
        exact Or.inl ⟨(a, some t'), List.mem_cons_self _ _, rfl⟩
      · have ht' : (k, t) ∈ dictErase d a.name :=
          dictErase_mem_of_ne d a.name k t (fun h => hk h.symm) ht
        rcases ih _ k t ht' (dictErase_keysNodup d a.name hnd) with ⟨pr, hpr, hpr2⟩ | h'
        · exact Or.inl ⟨pr, List.mem_cons_of_mem _ hpr, hpr2⟩
        · exact Or.inr h'
    | none =>
      rw [combineSecondPass_cons_none d a rest hl]
      rcases ih _ k t ht hnd with ⟨pr, hpr, hpr2⟩ | h'
      · exact Or.inl ⟨pr, List.mem_cons_of_mem _ hpr, hpr2⟩
      · exact Or.inr h'

theorem combineSecondPass_claimed_gone (l : List PEntry) :
    ∀ (d : List (String × PEntry)) (k : String),
      keysNodup d → (∃ t, (k, t) ∈ d) → (∃ e₀ ∈ l, e₀.name = k) →
      ∀ t', (k, t') ∉ (combineSecondPass d l).2 := by
  induction l with
  | nil => rintro d k _ _ ⟨e₀, he₀, _⟩ t'; simp at he₀
  | cons a rest ih =>
    rintro d k hnd ⟨t, ht⟩ ⟨e₀, he₀, hname⟩ t' hcon
    by_cases hk : a.name = k
    · cases hl : dictLookup d a.name with
      | none =>
        exact dictLookup_ne_none_of_mem d a.name t (hk ▸ ht) hl
      | some tx =>
        rw [combineSecondPass_cons_some d a rest tx hl] at hcon
        have hsub := combineSecondPass_dict_subset rest _ k t' hcon
        rw [← hk] at hsub
        exact dictErase_not_mem d a.name t' hsub
    · cases hl : dictLookup d a.name with
      | none =>
        rw [combineSecondPass_cons_none d a rest hl] at hcon
        have he₀' : e₀ ∈ rest := by
          rcases List.mem_cons.mp he₀ with rfl | h'
          · exact absurd hname hk
          · exact h'
        exact ih d k hnd ⟨t, ht⟩ ⟨e₀, he₀', hname⟩ t' hcon
      | some tx =>
        rw [combineSecondPass_cons_some d a rest tx hl] at hcon
        have he₀' : e₀ ∈ rest := by
          rcases List.mem_cons.mp he₀ with rfl | h'
          · exact absurd hname hk
          · exact h'
        have ht' : (k, t) ∈ dictErase d a.name :=
          dictErase_mem_of_ne d a.name k t (fun h => hk h.symm) ht
        exact ih _ k (dictErase_keysNodup d a.name hnd) ⟨t, ht'⟩ ⟨e₀, he₀', hname⟩ t' hcon

theorem combineSecondPass_unmatched_stays (l : List PEntry) :
    ∀ (d : List (String × PEntry)) (k : String) (t : PEntry),
      (k, t) ∈ d → keysNodup d → (∀ e ∈ l, e.name ≠ k) →
      (k, t) ∈ (combineSecondPass d l).2 := by
  induction l with
  | nil => intro d k t ht _ _; exact ht
  | cons a rest ih =>
    intro d k t ht hnd hne
    cases hl : dictLookup d a.name with
    | some t' =>
      rw [combineSecondPass_cons_some d a rest t' hl]
      have hk : a.name ≠ k := hne a (List.mem_cons_self _ _)
      have ht' : (k, t) ∈ dictErase d a.name :=
        dictErase_mem_of_ne d a.name k t (fun h => hk h.symm) ht
      exact ih _ k t ht' (dictErase_keysNodup d a.name hnd)
        (fun e he => hne e (List.mem_cons_of_mem _ he))
    | none =>
      rw [combineSecondPass_cons_none d a rest hl]
      exact ih d k t ht hnd (fun e he => hne e (List.mem_cons_of_mem _ he))

theorem combineSecondPass_claims_first (l : List PEntry) :
    ∀ (d : List (String × PEntry)) (k : String) (t : PEntry) (e₀ : PEntry),
      keysNodup d → (k, t) ∈ d → e₀ ∈ l → e₀.name = k →
      (∀ e' ∈ l, e'.name = k → e' = e₀) →
      (e₀, some t) ∈ (combineSecondPass d l).1 := by
  induction l with
  | nil => intro d k t e₀ _ _ he₀; simp at he₀
  | cons a rest ih =>
    intro d k t e₀ hnd ht he₀ hname huniq
    by_cases hk : a.name = k
    · have ha : a = e₀ := huniq a (List.mem_cons_self _ _) hk
      subst ha
      have hl : dictLookup d a.name = some t := by
        rw [hk]
        exact dictLookup_eq_of_mem_nodup d hnd k t ht
      rw [combineSecondPass_cons_some d a rest t hl]
      exact List.mem_cons_self _ _
    · have he₀' : e₀ ∈ rest := by
        rcases List.mem_cons.mp he₀ with rfl | h'
        · exact absurd hname hk
        · exact h'
      cases hl : dictLookup d a.name with
      | some t' =>
        rw [combineSecondPass_cons_some d a rest t' hl]
        have ht' : (k, t) ∈ dictErase d a.name :=
          dictErase_mem_of_ne d a.name k t (fun h => hk h.symm) ht
        exact List.mem_cons_of_mem _
          (ih _ k t e₀ (dictErase_keysNodup d a.name hnd) ht' he₀' hname
            (fun e' he' => huniq e' (List.mem_cons_of_mem _ he')))
      | none =>
        rw [combineSecondPass_cons_none d a rest hl]
        exact List.mem_cons_of_mem _
          (ih d k t e₀ hnd ht he₀' hname
            (fun e' he' => huniq e' (List.mem_cons_of_mem _ he')))

/-- C2 (amended): provided no two test entries declare the same under-test
target, every entry given to `_CombineTestEntries` appears in its result,
either as a member or as the `android_test_entry` of a member. -/
theorem claim2_theorem (entries : List PEntry)
    (h : ∀ t ∈ entries, ∀ t' ∈ entries, isTestApk t = true → isTestApk t' = true →
         apkName t = apkName t' → t = t') :
    ∀ e ∈ entries,
      (∃ p ∈ _CombineTestEntries entries, p.1 = e) ∨
      (∃ p ∈ _CombineTestEntries entries, p.2 = some e) := by
  intro e he
  unfold _CombineTestEntries
  by_cases ht : isTestApk e
  · have hd : (apkName e, e) ∈ (combineFirstPass [] entries).2 :=
      combineFirstPass_test_mem entries [] e he ht
        (fun e' he' ht' hk => h e' he' e he ht' ht hk)
    have hnd : keysNodup (combineFirstPass [] entries).2 :=
      combineFirstPass_keysNodup entries [] (by simp [keysNodup])
    rcases combineSecondPass_binding_fate (combineFirstPass [] entries).1 _ _ _ hd hnd
      with ⟨pr, hpr, hpr2⟩ | hstay
    · exact Or.inr ⟨pr, List.mem_append_left _ hpr, hpr2⟩
    · refine Or.inl ⟨(e, none), List.mem_append_right _ ?_, rfl⟩
      exact List.mem_map.mpr ⟨(apkName e, e), hstay, rfl⟩
  · have hc : e ∈ (combineFirstPass [] entries).1 :=
      combineFirstPass_mem_combined entries [] e he (by simpa using ht)
    obtain ⟨o, ho⟩ := combineSecondPass_pairs_cover (combineFirstPass [] entries).1 _ e hc
    exact Or.inl ⟨(e, o), List.mem_append_left _ ho, rfl⟩

/-- C2 counterexample: with two test entries both declaring
`apk_under_test = "x"` (and no entry named `x`), the dict assignment
overwrites the first one, which then appears nowhere in the result — so a
test entry can be silently dropped, contrary to the claim. -/
theorem claim2_counterexample :
    ¬ ((∃ p ∈ _CombineTestEntries
          [(⟨ "//a:t1_test_apk__apk", some "x", "t1"⟩ : PEntry),
           ⟨ "//a:t2_test_apk__apk", some "x", "t2"⟩],
          p.1 = (⟨ "//a:t1_test_apk__apk", some "x", "t1"⟩ : PEntry)) ∨
       (∃ p ∈ _CombineTestEntries
          [(⟨ "//a:t1_test_apk__apk", some "x", "t1"⟩ : PEntry),
           ⟨ "//a:t2_test_apk__apk", some "x", "t2"⟩],
          p.2 = some (⟨ "//a:t1_test_apk__apk", some "x", "t1"⟩ : PEntry))) := by
  decide

/-- Closed instance of `claim2_theorem`: an app plus its matching test
entry; the test entry survives as the app's associated test entry. -/
theorem claim2_witness :
    (∃ p ∈ _CombineTestEntries
        [(⟨ "//a:app__apk", none, "app.apk"⟩ : PEntry),
         ⟨ "//a:app_test_apk__apk", some "app.apk", "tt"⟩],
        p.1 = (⟨ "//a:app_test_apk__apk", some "app.apk", "tt"⟩ : PEntry)) ∨
    (∃ p ∈ _CombineTestEntries
        [(⟨ "//a:app__apk", none, "app.apk"⟩ : PEntry),
         ⟨ "//a:app_test_apk__apk", some "app.apk", "tt"⟩],
        p.2 = some (⟨ "//a:app_test_apk__apk", some "app.apk", "tt"⟩ : PEntry)) :=
  claim2_theorem
    [⟨ "//a:app__apk", none, "app.apk"⟩, ⟨ "//a:app_test_apk__apk", some "app.apk", "tt"⟩]
    (by decide) ⟨ "//a:app_test_apk__apk", some "app.apk", "tt"⟩ (by decide)

/-- C3 (amended): provided no two test entries declare the same under-test
target and exactly one non-test entry is named `N`, the entry named `N`
gets the test entry declaring `apk_under_test = N` as its
`android_test_entry`, that test entry does not appear as a standalone
member, and every test entry whose declared under-test target matches no
non-test entry's name appears standalone. -/
theorem claim3_theorem (entries : List PEntry) (N : String) (E T : PEntry)
    (happly : ∀ t ∈ entries, ∀ t' ∈ entries, isTestApk t = true →
       isTestApk t' = true → apkName t = apkName t' → t = t')
    (hE : E ∈ entries) (hEnot : isTestApk E = false) (hEname : E.name = N)
    (huniq : ∀ e' ∈ entries, isTestApk e' = false → e'.name = N → e' = E)
    (hT : T ∈ entries) (hTtest : isTestApk T = true) (hTapk : apkName T = N) :
    (E, some T) ∈ _CombineTestEntries entries ∧
    (∀ p ∈ _CombineTestEntries entries, p.1 ≠ T) ∧
    (∀ t ∈ entries, isTestApk t = true →
      (∀ e' ∈ entries, isTestApk e' = false → e'.name ≠ apkName t) →
      (t, none) ∈ _CombineTestEntries entries) := by
  have hnd : keysNodup (combineFirstPass [] entries).2 :=
    combineFirstPass_keysNodup entries [] (by simp [keysNodup])
  have hdT : (N, T) ∈ (combineFirstPass [] entries).2 := by
    rw [← hTapk]
    exact combineFirstPass_test_mem entries [] T hT hTtest
      (fun e' he' ht' hk => happly e' he' T hT ht' hTtest hk)
  have hEc : E ∈ (combineFirstPass [] entries).1 :=
    combineFirstPass_mem_combined entries [] E hE hEnot
  have huniqC : ∀ e' ∈ (combineFirstPass [] entries).1, e'.name = N → e' = E := by
    intro e' he' hn
    obtain ⟨hsrc, hnt⟩ := combineFirstPass_combined_src entries [] e' he'
    exact huniq e' hsrc hnt hn
  refine ⟨?_, ?_, ?_⟩
  · exact List.mem_append_left _
      (combineSecondPass_claims_first (combineFirstPass [] entries).1
        (combineFirstPass [] entries).2 N T E hnd hdT hEc hEname huniqC)
  · intro p hp
    rcases List.mem_append.mp hp with hp' | hp'
    · intro hcon
      have hsrc := combineSecondPass_pairs_src (combineFirstPass [] entries).1 _ p hp'
      have := (combineFirstPass_combined_src entries [] p.1 hsrc).2
      rw [hcon, hTtest] at this
      exact Bool.true_eq_false.mp this
    · intro hcon
      obtain ⟨kv, hkv, hkv2⟩ := List.mem_map.mp hp'
      have hT' : kv.2 = T := by
        have := congrArg Prod.fst hkv2
        simpa [hcon] using this
      have hmemd := combineSecondPass_dict_subset (combineFirstPass [] entries).1 _ kv.1 kv.2
        (by rw [← Prod.mk.eta (p := kv)] at hkv; exact hkv)
      rcases combineFirstPass_dict_src entries [] kv.1 kv.2 hmemd with h' | ⟨_, _, hapk⟩
      · simp at h'
      · have hk1 : kv.1 = N := by rw [← hapk, hT', hTapk]
        refine combineSecondPass_claimed_gone (combineFirstPass [] entries).1
          (combineFirstPass [] entries).2 N hnd ⟨T, hdT⟩ ⟨E, hEc, hEname⟩ kv.2 ?_
        rw [← hk1]
        rw [← Prod.mk.eta (p := kv)] at hkv
        exact hkv
  · intro t htm httest hnomatch
    have hdt : (apkName t, t) ∈ (combineFirstPass [] entries).2 :=
      combineFirstPass_test_mem entries [] t htm httest
        (fun e' he' ht' hk => happly e' he' t htm ht' httest hk)
    have hstay : (apkName t, t) ∈
        (combineSecondPass (combineFirstPass [] entries).2
          (combineFirstPass [] entries).1).2 := by
      refine combineSecondPass_unmatched_stays (combineFirstPass [] entries).1
        (combineFirstPass [] entries).2 (apkName t) t hdt hnd ?_
      intro e' he'
      obtain ⟨hsrc, hnt⟩ := combineFirstPass_combined_src entries [] e' he'
      exact hnomatch e' hsrc hnt
    exact List.mem_append_right _ (List.mem_map.mpr ⟨(apkName t, t), hstay, rfl⟩)

/-- C3 counterexample: input `[app, its test, u1-test(m), u2-test(m)]`
satisfies the claim's premise (one non-test entry named `app.apk`, exactly
one test entry declaring it), `u1`'s declared under-test target `m` matches
no entry's name, yet `u1` appears nowhere in the result — the claimed
standalone guarantee fails when two test entries declare the same
under-test target. -/
theorem claim3_counterexample :
    ((⟨ "//a:u1_test_apk__apk", some "m", "u1"⟩ : PEntry) ∈
      [(⟨ "//a:app__apk", none, "app.apk"⟩ : PEntry),
       ⟨ "//a:app_test_apk__apk", some "app.apk", "tt"⟩,
       ⟨ "//a:u1_test_apk__apk", some "m", "u1"⟩,
       ⟨ "//a:u2_test_apk__apk", some "m", "u2"⟩] ∧
     isTestApk (⟨ "//a:u1_test_apk__apk", some "m", "u1"⟩ : PEntry) = true ∧
     (∀ e ∈ [(⟨ "//a:app__apk", none, "app.apk"⟩ : PEntry),
       ⟨ "//a:app_test_apk__apk", some "app.apk", "tt"⟩,
       ⟨ "//a:u1_test_apk__apk", some "m", "u1"⟩,
       ⟨ "//a:u2_test_apk__apk", some "m", "u2"⟩],
        e.name ≠ apkName (⟨ "//a:u1_test_apk__apk", some "m", "u1"⟩ : PEntry))) ∧
    (∀ p ∈ _CombineTestEntries
       [(⟨ "//a:app__apk", none, "app.apk"⟩ : PEntry),
        ⟨ "//a:app_test_apk__apk", some "app.apk", "tt"⟩,
        ⟨ "//a:u1_test_apk__apk", some "m", "u1"⟩,
        ⟨ "//a:u2_test_apk__apk", some "m", "u2"⟩],
       p.1 ≠ (⟨ "//a:u1_test_apk__apk", some "m", "u1"⟩ : PEntry) ∧
       p.2 ≠ some (⟨ "//a:u1_test_apk__apk", some "m", "u1"⟩ : PEntry)) := by
  decide

/-- Closed instance of `claim3_theorem` on `[app, its test, one unmatched
test]`: the app gets its test entry, the test entry is not standalone, and
the unmatched test entry is standalone. -/
theorem claim3_witness :
    ((⟨ "//a:app__apk", none, "app.apk"⟩ : PEntry),
      some (⟨ "//a:app_test_apk__apk", some "app.apk", "tt"⟩ : PEntry)) ∈
      _CombineTestEntries
        [(⟨ "//a:app__apk", none, "app.apk"⟩ : PEntry),
         ⟨ "//a:app_test_apk__apk", some "app.apk", "tt"⟩,
         ⟨ "//a:u_test_apk__apk", some "m", "u"⟩] ∧
    (∀ p ∈ _CombineTestEntries
        [(⟨ "//a:app__apk", none, "app.apk"⟩ : PEntry),
         ⟨ "//a:app_test_apk__apk", some "app.apk", "tt"⟩,
         ⟨ "//a:u_test_apk__apk", some "m", "u"⟩],
        p.1 ≠ (⟨ "//a:app_test_apk__apk", some "app.apk", "tt"⟩ : PEntry)) ∧
    (∀ t ∈ [(⟨ "//a:app__apk", none, "app.apk"⟩ : PEntry),
         ⟨ "//a:app_test_apk__apk", some "app.apk", "tt"⟩,
         ⟨ "//a:u_test_apk__apk", some "m", "u"⟩], isTestApk t = true →
      (∀ e' ∈ [(⟨ "//a:app__apk", none, "app.apk"⟩ : PEntry),
         ⟨ "//a:app_test_apk__apk", some "app.apk", "tt"⟩,
         ⟨ "//a:u_test_apk__apk", some "m", "u"⟩],
        isTestApk e' = false → e'.name ≠ apkName t) →
      (t, none) ∈ _CombineTestEntries
        [(⟨ "//a:app__apk", none, "app.apk"⟩ : PEntry),
         ⟨ "//a:app_test_apk__apk", some "app.apk", "tt"⟩,
         ⟨ "//a:u_test_apk__apk", some "m", "u"⟩]) :=
  claim3_theorem
    [⟨ "//a:app__apk", none, "app.apk"⟩,
     ⟨ "//a:app_test_apk__apk", some "app.apk", "tt"⟩,
     ⟨ "//a:u_test_apk__apk", some "m", "u"⟩]
    "app.apk"
    ⟨ "//a:app__apk", none, "app.apk"⟩
    ⟨ "//a:app_test_apk__apk", some "app.apk", "tt"⟩
    (by decide) (by decide) (by decide) (by decide) (by decide) (by decide)
    (by decide) (by decide)

/-! ### Helper lemmas for the writer loop -/

theorem writerLoop_write_src (render : String → GEntry → String) (projDir : IdStr) :
    ∀ (l : List GEntry) (w : IdStr × String), w ∈ (writerLoop render projDir l).1 →
      ∃ e' ∈ l, e'.targetType ∈ qualifyingKinds ∧
        ∃ data, _GenerateGradleFile render e' = some data ∧ data ≠ "" ∧
          w = (entryBuildGradlePath projDir e', data) := by
  intro l
  induction l with
  | nil => intro w hw; simp [writerLoop] at hw
  | cons a rest ih =>
    intro w hw
    by_cases hq : a.targetType ∈ qualifyingKinds
    · cases hg : _GenerateGradleFile render a with
      | some data =>
        by_cases hd : data = ""
        · rw [writerLoop, if_pos hq] at hw
          simp only [hg] at hw
          rw [if_pos hd] at hw
          obtain ⟨e', he', hrest⟩ := ih w hw
          exact ⟨e', List.mem_cons_of_mem _ he', hrest⟩
        · rw [writerLoop, if_pos hq] at hw
          simp only [hg] at hw
          rw [if_neg hd] at hw
          rcases List.mem_cons.mp hw with rfl | hw'
          · exact ⟨a, List.mem_cons_self _ _, hq, data, hg, hd, rfl⟩
          · obtain ⟨e', he', hrest⟩ := ih w hw'
            exact ⟨e', List.mem_cons_of_mem _ he', hrest⟩
      | none =>
        rw [writerLoop, if_pos hq] at hw
        simp only [hg] at hw
        obtain ⟨e', he', hrest⟩ := ih w hw
        exact ⟨e', List.mem_cons_of_mem _ he', hrest⟩
    · rw [writerLoop, if_neg hq] at hw
      obtain ⟨e', he', hrest⟩ := ih w hw
      exact ⟨e', List.mem_cons_of_mem _ he', hrest⟩

theorem writerLoop_project_src (render : String → GEntry → String) (projDir : IdStr) :
    ∀ (l : List GEntry) (x : GEntry), x ∈ (writerLoop render projDir l).2 →
      x ∈ l ∧ x.targetType ∈ qualifyingKinds ∧
        ∃ data, _GenerateGradleFile render x = some data ∧ data ≠ "" := by
  intro l
  induction l with
  | nil => intro x hx; simp [writerLoop] at hx
  | cons a rest ih =>
    intro x hx
    by_cases hq : a.targetType ∈ qualifyingKinds
    · cases hg : _GenerateGradleFile render a with
      | some data =>
        by_cases hd : data = ""
        · rw [writerLoop, if_pos hq] at hx
          simp only [hg] at hx
          rw [if_pos hd] at hx
          obtain ⟨h1, h2⟩ := ih x hx
          exact ⟨List.mem_cons_of_mem _ h1, h2⟩
        · rw [writerLoop, if_pos hq] at hx
          simp only [hg] at hx
          rw [if_neg hd] at hx
          rcases List.mem_cons.mp hx with rfl | hx'
          · exact ⟨List.mem_cons_self _ _, hq, data, hg, hd⟩
          · obtain ⟨h1, h2⟩ := ih x hx'
            exact ⟨List.mem_cons_of_mem _ h1, h2⟩
      | none =>
        rw [writerLoop, if_pos hq] at hx
        simp only [hg] at hx
        obtain ⟨h1, h2⟩ := ih x hx
        exact ⟨List.mem_cons_of_mem _ h1, h2⟩
    · rw [writerLoop, if_neg hq] at hx
      obtain ⟨h1, h2⟩ := ih x hx
      exact ⟨List.mem_cons_of_mem _ h1, h2⟩

theorem entryBuildGradlePath_inj (projDir : IdStr) (e' e : GEntry)
    (h : entryBuildGradlePath projDir e' = entryBuildGradlePath projDir e) :
    replaceColonSlash (e'.gn_target.drop 2) = replaceColonSlash (e.gn_target.drop 2) := by
  unfold entryBuildGradlePath at h
  rw [List.append_assoc, List.append_assoc] at h
  have h1 := List.append_cancel_left h
  rw [List.cons_append, List.cons_append] at h1
  have h2 := List.cons.injEq .. ▸ h1
  exact List.append_cancel_right h2.2

/-- C8: a `java_library` entry flagged prebuilt (or treat-as-prebuilt), and
every entry of a kind other than apk / library / binary, produces no
output: `_GenerateGradleFile` returns `None`, the entry is not recorded in
`project_entries` (the list the settings.gradle module list is generated
from), and no `build.gradle` is written at that identity's output path
(assuming, as GN guarantees, that distinct entries have distinct output
subdirectories). -/
theorem claim8_theorem (render : String → GEntry → String) (projDir : IdStr)
    (entries : List GEntry) (e : GEntry) (he : e ∈ entries)
    (hbad : (e.targetType = "java_library" ∧
       (e.isPrebuilt = true ∨ e.gradleTreatAsPrebuilt = true)) ∨
       e.targetType ∉ qualifyingKinds)
    (hpath : ∀ e' ∈ entries,
       replaceColonSlash (e'.gn_target.drop 2) = replaceColonSlash (e.gn_target.drop 2) →
       e' = e) :
    _GenerateGradleFile render e = none ∧
    e ∉ (writerLoop render projDir entries).2 ∧
    ∀ w ∈ (writerLoop render projDir entries).1,
      w.1 ≠ entryBuildGradlePath projDir e := by
  have hgen : _GenerateGradleFile render e = none := by
    rcases hbad with ⟨htype, hpre⟩ | hq
    · have h1 : e.targetType ≠ "android_apk" := by rw [htype]; decide
      rcases hpre with hp | hp
      · simp [_GenerateGradleFile, h1, htype, hp]
      · simp [_GenerateGradleFile, h1, htype, hp]
    · simp only [qualifyingKinds, List.mem_cons, List.mem_singleton] at hq
      push_neg at hq
      simp [_GenerateGradleFile, hq.1, hq.2.1, hq.2.2, List.not_mem_nil]
  refine ⟨hgen, ?_, ?_⟩
  · intro hmem
    obtain ⟨_, _, data, hdata, _⟩ :=
      writerLoop_project_src render projDir entries e hmem
    rw [hgen] at hdata
    exact Option.noConfusion hdata
  · intro w hw hcon
    obtain ⟨e', he', _, data, hdata, _, hweq⟩ :=
      writerLoop_write_src render projDir entries w hw
    have hpe : entryBuildGradlePath projDir e' = entryBuildGradlePath projDir e := by
      rw [hweq] at hcon
      exact hcon
    have : e' = e := hpath e' he' (entryBuildGradlePath_inj projDir e' e hpe)
    rw [this, hgen] at hdata
    exact Option.noConfusion hdata

/-- Closed instance of `claim8_theorem`: a prebuilt library next to a real
apk — the prebuilt one yields no gradle file, no module-list entry and no
written path. -/
theorem claim8_witness :
    _GenerateGradleFile (fun t _ => t)
      (⟨ strL "//a:lib", "java_library", true, false, false, ""⟩ : GEntry) = none ∧
    (⟨ strL "//a:lib", "java_library", true, false, false, ""⟩ : GEntry) ∉
      (writerLoop (fun t _ => t) (strL "proj")
        [(⟨ strL "//a:lib", "java_library", true, false, false, ""⟩ : GEntry),
         ⟨ strL "//a:app", "android_apk", false, false, true, ""⟩]).2 ∧
    ∀ w ∈ (writerLoop (fun t _ => t) (strL "proj")
        [(⟨ strL "//a:lib", "java_library", true, false, false, ""⟩ : GEntry),
         ⟨ strL "//a:app", "android_apk", false, false, true, ""⟩]).1,
      w.1 ≠ entryBuildGradlePath (strL "proj")
        (⟨ strL "//a:lib", "java_library", true, false, false, ""⟩ : GEntry) :=
  claim8_theorem (fun t _ => t) (strL "proj")
    [⟨ strL "//a:lib", "java_library", true, false, false, ""⟩,
     ⟨ strL "//a:app", "android_apk", false, false, true, ""⟩]
    ⟨ strL "//a:lib", "java_library", true, false, false, ""⟩
    (by decide) (Or.inl ⟨rfl, Or.inl rfl⟩) (by decide)

/-! ### Helper lemmas for the identity round-trip -/

theorem takeWhile_all_append_cons (p : Char → Bool) (a : List Char) (x : Char)
    (b : List Char) (ha : ∀ c ∈ a, p c = true) (hx : p x = false) :
    List.takeWhile p (a ++ x :: b) = a := by
  induction a with
  | nil => simp [List.takeWhile_cons, hx]
  | cons c cs ih =>
    rw [List.cons_append, List.takeWhile_cons, ha c (List.mem_cons_self _ _)]
    rw [ih (fun c' hc' => ha c' (List.mem_cons_of_mem _ hc'))]
    simp

theorem replaceColonSlash_append (a b : IdStr) :
    replaceColonSlash (a ++ b) = replaceColonSlash a ++ replaceColonSlash b :=
  List.map_append _ a b

theorem replaceColonSlash_id (a : IdStr) (h : ':' ∉ a) : replaceColonSlash a = a := by
  unfold replaceColonSlash
  conv_rhs => rw [← List.map_id a]
  apply List.map_congr_left
  intro c hc
  have hcne : c ≠ ':' := fun hcc => h (hcc ▸ hc)
  simp [hcne]

theorem rstripSlash_append_slash (d : IdStr) (hd0 : d ≠ [])
    (hds : d.getLast? ≠ some '/') : rstripSlash (d ++ ['/']) = d := by
  unfold rstripSlash
  have h1 : (d ++ ['/']).reverse = '/' :: d.reverse := by simp
  rw [h1, List.dropWhile_cons, if_pos (by simp)]
  cases hrev : d.reverse with
  | nil => exact absurd (List.reverse_eq_nil_iff.mp hrev) hd0
  | cons c cs =>
    have hc : c ≠ '/' := by
      intro hcc
      apply hds
      rw [← List.head?_reverse, hrev, hcc]
      rfl
    rw [List.dropWhile_cons, if_neg (by simp [hc]), ← hrev, List.reverse_reverse]

theorem splitPath_append_slash (d nm : IdStr) (hd0 : d ≠ [])
    (hds : d.getLast? ≠ some '/') (hns : '/' ∉ nm) :
    splitPath (d ++ '/' :: nm) = (d, nm) := by
  have htl : ((d ++ '/' :: nm).reverse.takeWhile (fun c => c ≠ '/')).reverse = nm := by
    rw [List.reverse_append, List.reverse_cons, List.append_assoc, List.singleton_append]
    rw [takeWhile_all_append_cons _ nm.reverse '/' d.reverse
      (fun c hc => by
        simp only [List.mem_reverse] at hc
        have hcne : c ≠ '/' := fun hcc => hns (hcc ▸ hc)
        simp [hcne])
      (by simp)]
    exact List.reverse_reverse nm
  have hhd : (d ++ '/' :: nm).take ((d ++ '/' :: nm).length - nm.length) = d ++ ['/'] := by
    have hlen : (d ++ '/' :: nm).length - nm.length = d.length + 1 := by
      simp only [List.length_append, List.length_cons]
      omega
    rw [hlen]
    have h2 := @List.take_append Char d ('/' :: nm) 1
    simpa using h2
  have hne : (d ++ ['/']).isEmpty = false := by
    cases d <;> rfl
  obtain ⟨c, hc, hcne⟩ : ∃ c ∈ d, c ≠ '/' := by
    cases hd : d.getLast? with
    | none => exact absurd (List.getLast?_eq_none_iff.mp hd) hd0
    | some c =>
      refine ⟨c, List.mem_of_mem_getLast? hd, ?_⟩
      intro hcc
      exact hds (hcc ▸ hd)
  have hall : (d ++ ['/']).all (fun c => c = '/') = false := by
    rw [List.all_eq_false]
    exact ⟨c, List.mem_append_left _ hc, by simp [hcne]⟩
  simp only [splitPath]
  rw [htl, hhd]
  rw [if_neg (by rw [hne, hall]; simp)]
  rw [rstripSlash_append_slash d hd0 hds]

theorem fromBuildConfigPath_shape (sub : IdStr) :
    FromBuildConfigPath (strL "gen/" ++ sub ++ strL ".build_config") =
      fromName (strL "//" ++ (splitPath sub).1 ++ ':' :: (splitPath sub).2) := by
  have hstart : startsWithL (strL "gen/" ++ sub ++ strL ".build_config")
      (strL "gen/") = true := by
    unfold startsWithL
    rw [List.append_assoc, List.take_left]
    simp
  have hlen13 : (strL "gen/" ++ sub ++ strL ".build_config").length -
      (strL ".build_config").length = (strL "gen/" ++ sub).length := by
    simp only [List.length_append]
    omega
  have hends : endsWithL (strL "gen/" ++ sub ++ strL ".build_config")
      (strL ".build_config") = true := by
    unfold endsWithL
    rw [hlen13, List.drop_left]
    simp
  have hdrop4 : (strL "gen/" ++ sub ++ strL ".build_config").drop 4 =
      sub ++ strL ".build_config" := by
    rw [List.append_assoc]
    have h4 : (4 : Nat) = (strL "gen/").length := rfl
    rw [h4, List.drop_left]
  have hlen17 : (strL "gen/" ++ sub ++ strL ".build_config").length - 17 = sub.length := by
    simp only [List.length_append]
    have hg : (strL "gen/").length = 4 := rfl
    have hb : (strL ".build_config").length = 13 := rfl
    omega
  simp only [FromBuildConfigPath]
  rw [if_pos ⟨hstart, hends⟩]
  rw [hdrop4, hlen17, List.take_left]

/-- C9: `FromBuildConfigPath` inverts the descriptor-path construction: for
a well-formed identity `//dir:name` (nonempty `dir` with no colon and no
trailing separator, `name` with no separator and no colon), applying it to
`gen/` + `GradleSubdir` + `.build_config` returns an entry equal to the
original; and it fails (the assert, modelled as `none`) on any path that
does not start with `gen/` or does not end with the descriptor
extension. -/
theorem claim9_theorem (d nm : IdStr)
    (hd0 : d ≠ []) (hdc : ':' ∉ d) (hds : d.getLast? ≠ some '/')
    (hns : '/' ∉ nm) (hnc : ':' ∉ nm) :
    (∃ e, fromName (strL "//" ++ d ++ ':' :: nm) = some e ∧
       FromBuildConfigPath (buildConfigPath e) = some e) ∧
    (∀ path : IdStr, startsWithL path (strL "gen/") = false ∨
       endsWithL path (strL ".build_config") = false →
       FromBuildConfigPath path = none) := by
  constructor
  · have hgnstart : startsWithL (strL "//" ++ d ++ ':' :: nm) (strL "//") = true := by
      unfold startsWithL
      rw [List.append_assoc, List.take_left]
      simp
    have hcolon : ':' ∈ strL "//" ++ d ++ ':' :: nm :=
      List.mem_append_right _ (List.mem_cons_self _ _)
    have hfrom : fromName (strL "//" ++ d ++ ':' :: nm) =
        some ⟨strL "//" ++ d ++ ':' :: nm⟩ := by
      unfold fromName
      rw [if_pos hgnstart, if_pos hcolon]
    refine ⟨⟨strL "//" ++ d ++ ':' :: nm⟩, hfrom, ?_⟩
    have hsub : GradleSubdir ⟨strL "//" ++ d ++ ':' :: nm⟩ = d ++ '/' :: nm := by
      unfold GradleSubdir ninjaTarget
      have hdrop : (strL "//" ++ d ++ ':' :: nm).drop 2 = d ++ ':' :: nm := by
        rw [List.append_assoc]
        have h2 : (2 : Nat) = (strL "//").length := rfl
        rw [h2, List.drop_left]
      rw [hdrop]
      rw [show (d ++ ':' :: nm) = d ++ [':'] ++ nm by simp]
      rw [replaceColonSlash_append, replaceColonSlash_append]
      rw [replaceColonSlash_id d hdc, replaceColonSlash_id nm hnc]
      simp [replaceColonSlash]
    unfold buildConfigPath
    rw [hsub, fromBuildConfigPath_shape (d ++ '/' :: nm)]
    rw [splitPath_append_slash d nm hd0 hds hns]
    exact hfrom
  · intro path hp
    unfold FromBuildConfigPath
    rcases hp with hp | hp
    · rw [if_neg (by simp [hp])]
    · rw [if_neg (by simp [hp])]

/-- Closed instance of `claim9_theorem` at the identity `//ab/cd:nm`, plus
its failure cases. -/
theorem claim9_witness :
    (∃ e, fromName (strL "//" ++ strL "ab/cd" ++ ':' :: strL "nm") = some e ∧
       FromBuildConfigPath (buildConfigPath e) = some e) ∧
    (∀ path : IdStr, startsWithL path (strL "gen/") = false ∨
       endsWithL path (strL ".build_config") = false →
       FromBuildConfigPath path = none) :=
  claim9_theorem (strL "ab/cd") (strL "nm")
    (by decide) (by decide) (by decide) (by decide) (by decide)

/-! ### Helper lemmas for `relpathP` -/

theorem cpl_le_left : ∀ (p b : Pth), cpl p b ≤ p.length := by
  intro p
  induction p with
  | nil => intro b; cases b <;> simp [cpl]
  | cons a as ih =>
    intro b
    cases b with
    | nil => simp [cpl]
    | cons x xs =>
      rw [cpl]
      by_cases hax : a = x
      · rw [if_pos hax]
        simpa using Nat.succ_le_succ (ih xs)
      · rw [if_neg hax]
        simp

theorem cpl_le_right : ∀ (p b : Pth), cpl p b ≤ b.length := by
  intro p
  induction p with
  | nil => intro b; cases b <;> simp [cpl]
  | cons a as ih =>
    intro b
    cases b with
    | nil => simp [cpl]
    | cons x xs =>
      rw [cpl]
      by_cases hax : a = x
      · rw [if_pos hax]
        simpa using Nat.succ_le_succ (ih xs)
      · rw [if_neg hax]
        simp

theorem take_cpl_eq : ∀ (p b : Pth), p.take (cpl p b) = b.take (cpl p b) := by
  intro p
  induction p with
  | nil => intro b; cases b <;> simp [cpl]
  | cons a as ih =>
    intro b
    cases b with
    | nil => simp [cpl]
    | cons x xs =>
      rw [cpl]
      by_cases hax : a = x
      · rw [if_pos hax]
        simp only [List.take_succ_cons]
        rw [hax, ih xs]
      · rw [if_neg hax]
        simp

theorem cpl_of_take (b : Pth) : ∀ (p : Pth), p.take b.length = b → cpl p b = b.length := by
  induction b with
  | nil => intro p _; cases p <;> simp [cpl]
  | cons x xs ih =>
    intro p h
    cases p with
    | nil => simp at h
    | cons a as =>
      simp only [List.length_cons, List.take_succ_cons, List.cons.injEq] at h
      rw [cpl, if_pos h.1]
      simp [ih as h.2]

theorem countLeadDots_replicate_append (t : Pth) (ht : t.head? ≠ some "..") :
    ∀ k : Nat, countLeadDots (List.replicate k ".." ++ t) = k := by
  intro k
  induction k with
  | zero =>
    simp only [List.replicate, List.nil_append]
    cases t with
    | nil => rfl
    | cons x rest =>
      have hx : x ≠ ".." := by
        intro hcon
        exact ht (by rw [hcon]; rfl)
      rw [countLeadDots, if_neg hx]
  | succ k ihk =>
    rw [List.replicate_succ, List.cons_append, countLeadDots, if_pos rfl, ihk]

theorem recover_relpathP (p base : Pth) (hp : nodots p) :
    recoverP base (relpathP p base) = p := by
  unfold relpathP
  by_cases hr : List.replicate (base.length - cpl p base) ".." ++ p.drop (cpl p base) = []
  · rw [if_pos hr]
    unfold recoverP
    rw [if_pos rfl]
    obtain ⟨h1, h2⟩ := List.append_eq_nil.mp hr
    have hk : base.length - cpl p base = 0 := by
      have := congrArg List.length h1
      simpa using this
    have hlp : p.length ≤ cpl p base := List.drop_eq_nil_iff_le.mp h2
    have hcl := cpl_le_left p base
    have hcb := cpl_le_right p base
    have htp : p.take (cpl p base) = p := List.take_of_length_le hlp
    have htb : base.take (cpl p base) = base := List.take_of_length_le (by omega)
    rw [← htb, ← take_cpl_eq, htp]
  · rw [if_neg hr]
    unfold recoverP
    rw [if_neg ?hdot]
    case hdot =>
      intro hcon
      have hdotmem : "." ∈ List.replicate (base.length - cpl p base) ".." ++
          p.drop (cpl p base) := by
        rw [hcon]
        simp
      rcases List.mem_append.mp hdotmem with h' | h'
      · have := List.eq_of_mem_replicate h'
        simp at this
      · exact hp.1 (List.mem_of_mem_drop h')
    have hcount : countLeadDots (List.replicate (base.length - cpl p base) ".." ++
        p.drop (cpl p base)) = base.length - cpl p base := by
      apply countLeadDots_replicate_append
      cases hh : (p.drop (cpl p base)).head? with
      | none => simp
      | some x =>
        intro hcon
        simp only [Option.some.injEq] at hcon
        have hxm : x ∈ p.drop (cpl p base) := by
          cases hdd : p.drop (cpl p base) with
          | nil => rw [hdd] at hh; simp at hh
          | cons y ys =>
            rw [hdd] at hh
            simp only [List.head?_cons, Option.some.injEq] at hh
            rw [hh]
            exact List.mem_cons_self _ _
        exact hp.2 (hcon ▸ List.mem_of_mem_drop hxm)
    rw [hcount]
    have hbb : base.length - (base.length - cpl p base) = cpl p base := by
      have := cpl_le_right p base
      omega
    rw [hbb]
    have hdrop : (List.replicate (base.length - cpl p base) ".." ++
        p.drop (cpl p base)).drop (base.length - cpl p base) = p.drop (cpl p base) := by
      have h := List.drop_left (List.replicate (base.length - cpl p base) "..")
        (p.drop (cpl p base))
      rwa [List.length_replicate] at h
    rw [hdrop, ← take_cpl_eq]
    exact List.take_append_drop _ p

theorem relpathP_inj (p q base : Pth) (hp : nodots p) (hq : nodots q)
    (h : relpathP p base = relpathP q base) : p = q := by
  have h1 := recover_relpathP p base hp
  have h2 := recover_relpathP q base hq
  rw [← h1, ← h2, h]

theorem prefix_append_drop (p b : Pth) (h : p.take b.length = b) :
    b ++ p.drop b.length = p := by
  conv_rhs => rw [← List.take_append_drop b.length p]
  rw [h]

theorem relpathP_of_under (p b : Pth) (h : p.take b.length = b)
    (hlt : b.length < p.length) : relpathP p b = p.drop b.length := by
  unfold relpathP
  rw [cpl_of_take b p h]
  simp only [Nat.sub_self, List.replicate, List.nil_append]
  rw [if_neg]
  intro hcon
  have := List.drop_eq_nil_iff_le.mp hcon
  omega

theorem nodots_dropLast (p : Pth) (h : nodots p) : nodots (dirnameP p) := by
  unfold nodots dirnameP at *
  exact ⟨fun hc => h.1 ((List.dropLast_sublist p).mem hc),
         fun hc => h.2 ((List.dropLast_sublist p).mem hc)⟩

theorem nodots_concat_star (p : Pth) (h : nodots p) : nodots (p ++ [starJava]) := by
  unfold nodots at *
  constructor
  · intro hc
    rcases List.mem_append.mp hc with h' | h'
    · exact h.1 h'
    · simp [starJava] at h'
  · intro hc
    rcases List.mem_append.mp hc with h' | h'
    · exact h.2 h'
    · simp [starJava] at h'

/-! ### Helper lemmas for the exclude-filter computation -/

theorem globJava_mem_iff (fs : List Pth) (d f : Pth) :
    f ∈ globJava fs d ↔ f ∈ fs ∧ f.dropLast = d ∧
      (match f.getLast? with
       | some b => strEndsWith b ".java" && !(strStartsWith b ".")
       | none => false) = true := by
  unfold globJava
  rw [List.mem_filter]
  constructor
  · rintro ⟨h1, h2⟩
    rw [Bool.and_eq_true] at h2
    exact ⟨h1, by simpa using h2.1, h2.2⟩
  · rintro ⟨h1, h2, h3⟩
    exact ⟨h1, by rw [Bool.and_eq_true]; exact ⟨by simpa using h2, h3⟩⟩

theorem findInDirectory_mem (fs : List Pth) (d f : Pth)
    (h : f ∈ findInDirectory fs d) :
    f ∈ fs ∧ f.take d.length = d ∧ d.length < f.length := by
  unfold findInDirectory at h
  rw [List.mem_filter] at h
  obtain ⟨h1, h2⟩ := h
  rw [Bool.and_eq_true, Bool.and_eq_true] at h2
  exact ⟨h1, by simpa using h2.1.1, by simpa using h2.1.2⟩

theorem mem_filter_not_found (rest found : List Pth) (r : Pth) :
    r ∈ rest.filter (fun x => !(found.contains x)) ↔ r ∈ rest ∧ r ∉ found := by
  rw [List.mem_filter]
  constructor
  · rintro ⟨h1, h2⟩
    refine ⟨h1, fun hmem => ?_⟩
    rw [Bool.not_eq_true'] at h2
    have hct : found.contains r = true := List.elem_eq_true_of_mem hmem
    rw [hct] at h2
    exact Bool.noConfusion h2
  · rintro ⟨h1, h2⟩
    refine ⟨h1, ?_⟩
    rw [Bool.not_eq_true']
    cases hc : found.contains r with
    | false => rfl
    | true =>
      have hc' : List.elem r found = true := hc
      exact absurd (List.elem_iff.mp hc') h2

theorem excludeGo_shape (fs wanted : List Pth) (parent : Pth) :
    ∀ (fuel : Nat) (q : List Pth), q.length ≤ fuel →
      ∀ x ∈ excludeGo fs wanted parent fuel q,
        (∃ v ∈ q, ((globJava fs (dirnameP v)).filter
            (fun g => wanted.contains g)).isEmpty = false ∧ x = relpathP v parent) ∨
        (∃ v ∈ q, ((globJava fs (dirnameP v)).filter
            (fun g => wanted.contains g)).isEmpty = true ∧
          x = relpathP (dirnameP v ++ [starJava]) parent) := by
  intro fuel
  induction fuel with
  | zero => intro q hlen x hx; simp [excludeGo] at hx
  | succ fuel ih =>
    intro q hlen x hx
    match q with
    | [] => simp [excludeGo] at hx
    | u :: rest =>
      simp only [excludeGo] at hx
      simp only [List.length_cons, Nat.add_le_add_iff_right] at hlen
      by_cases hv : ((globJava fs (dirnameP u)).filter
          (fun g => wanted.contains g)).isEmpty = true
      · rw [if_pos hv] at hx
        rcases List.mem_cons.mp hx with rfl | hx'
        · exact Or.inr ⟨u, List.mem_cons_self _ _, hv, rfl⟩
        · have hlen' : (rest.filter
              (fun r => !((globJava fs (dirnameP u)).contains r))).length ≤ fuel :=
            le_trans (List.length_filter_le _ _) hlen
          rcases ih _ hlen' x hx' with ⟨v, hvm, hrest⟩ | ⟨v, hvm, hrest⟩
          · exact Or.inl ⟨v, List.mem_cons_of_mem _ (List.mem_of_mem_filter hvm), hrest⟩
          · exact Or.inr ⟨v, List.mem_cons_of_mem _ (List.mem_of_mem_filter hvm), hrest⟩
      · rw [if_neg hv] at hx
        rcases List.mem_cons.mp hx with rfl | hx'
        · exact Or.inl ⟨u, List.mem_cons_self _ _, Bool.not_eq_true _ ▸ hv, rfl⟩
        · rcases ih _ hlen x hx' with ⟨v, hvm, hrest⟩ | ⟨v, hvm, hrest⟩
          · exact Or.inl ⟨v, List.mem_cons_of_mem _ hvm, hrest⟩
          · exact Or.inr ⟨v, List.mem_cons_of_mem _ hvm, hrest⟩

theorem excludeGo_glob_mem (fs wanted : List Pth) (parent : Pth) :
    ∀ (fuel : Nat) (q : List Pth), q.length ≤ fuel → ∀ U ∈ q,
      ((globJava fs (dirnameP U)).filter (fun g => wanted.contains g)).isEmpty = true →
      relpathP (dirnameP U ++ [starJava]) parent ∈ excludeGo fs wanted parent fuel q := by
  intro fuel
  induction fuel with
  | zero => intro q hlen U hU _; rw [List.length_eq_zero.mp (Nat.le_zero.mp hlen)] at hU; simp at hU
  | succ fuel ih =>
    intro q hlen U hU hUv
    match q with
    | [] => simp at hU
    | u :: rest =>
      simp only [excludeGo]
      simp only [List.length_cons, Nat.add_le_add_iff_right] at hlen
      by_cases hv : ((globJava fs (dirnameP u)).filter
          (fun g => wanted.contains g)).isEmpty = true
      · rw [if_pos hv]
        by_cases hdir : dirnameP U = dirnameP u
        · rw [hdir]
          exact List.mem_cons_self _ _
        · have hUrest : U ∈ rest := by
            rcases List.mem_cons.mp hU with rfl | h'
            · exact absurd rfl hdir
            · exact h'
          have hUfil : U ∈ rest.filter
              (fun r => !((globJava fs (dirnameP u)).contains r)) := by
            rw [mem_filter_not_found]
            refine ⟨hUrest, fun hUf => ?_⟩
            exact hdir ((globJava_mem_iff fs (dirnameP u) U).mp hUf).2.1
          exact List.mem_cons_of_mem _
            (ih _ (le_trans (List.length_filter_le _ _) hlen) U hUfil hUv)
      · rw [if_neg hv]
        have hUrest : U ∈ rest := by
          rcases List.mem_cons.mp hU with rfl | h'
          · exact absurd hUv hv
          · exact h'
        exact List.mem_cons_of_mem _ (ih _ hlen U hUrest hUv)

theorem excludeGo_lit_mem (fs wanted : List Pth) (parent : Pth) :
    ∀ (fuel : Nat) (q : List Pth), q.length ≤ fuel → ∀ U ∈ q,
      ((globJava fs (dirnameP U)).filter (fun g => wanted.contains g)).isEmpty = false →
      relpathP U parent ∈ excludeGo fs wanted parent fuel q := by
  intro fuel
  induction fuel with
  | zero => intro q hlen U hU _; rw [List.length_eq_zero.mp (Nat.le_zero.mp hlen)] at hU; simp at hU
  | succ fuel ih =>
    intro q hlen U hU hUv
    match q with
    | [] => simp at hU
    | u :: rest =>
      simp only [excludeGo]
      simp only [List.length_cons, Nat.add_le_add_iff_right] at hlen
      by_cases hv : ((globJava fs (dirnameP u)).filter
          (fun g => wanted.contains g)).isEmpty = true
      · rw [if_pos hv]
        have hdir : dirnameP U ≠ dirnameP u := by
          intro h
          rw [h] at hUv
          rw [hUv] at hv
          exact Bool.noConfusion hv
        have hUrest : U ∈ rest := by
          rcases List.mem_cons.mp hU with rfl | h'
          · exact absurd rfl hdir
          · exact h'
        have hUfil : U ∈ rest.filter
            (fun r => !((globJava fs (dirnameP u)).contains r)) := by
          rw [mem_filter_not_found]
          refine ⟨hUrest, fun hUf => ?_⟩
          exact hdir ((globJava_mem_iff fs (dirnameP u) U).mp hUf).2.1
        exact List.mem_cons_of_mem _
          (ih _ (le_trans (List.length_filter_le _ _) hlen) U hUfil hUv)
      · rw [if_neg hv]
        rcases List.mem_cons.mp hU with rfl | h'
        · exact List.mem_cons_self _ _
        · exact List.mem_cons_of_mem _ (ih _ hlen U h' hUv)

/-- C6: for every unwanted file `U` handled by `_ComputeExcludeFilters`
(with well-formed path components: no `.`/`..` and no component literally
named `*.java`): when the glob over `dirname(U)` catches no wanted file, the
result contains the directory-glob pattern relative to the root rather than
`U`'s literal relative path, and no other unwanted file caught by that glob
contributes a literal pattern; when the glob catches some wanted file, the
result contains `U`'s literal relative path and not the directory glob. -/
theorem claim6_theorem (fs wanted unwanted : List Pth) (parent U : Pth)
    (hU : U ∈ unwanted)
    (hq : ∀ v ∈ unwanted, nodots v ∧ v.getLast? ≠ some starJava) :
    (((globJava fs (dirnameP U)).filter (fun g => wanted.contains g)).isEmpty = true →
       relpathP (dirnameP U ++ [starJava]) parent ∈
         _ComputeExcludeFilters fs wanted unwanted parent ∧
       relpathP U parent ∉ _ComputeExcludeFilters fs wanted unwanted parent ∧
       ∀ V ∈ unwanted, V ≠ U → V ∈ globJava fs (dirnameP U) →
         relpathP V parent ∉ _ComputeExcludeFilters fs wanted unwanted parent) ∧
    (((globJava fs (dirnameP U)).filter (fun g => wanted.contains g)).isEmpty = false →
       relpathP U parent ∈ _ComputeExcludeFilters fs wanted unwanted parent ∧
       relpathP (dirnameP U ++ [starJava]) parent ∉
         _ComputeExcludeFilters fs wanted unwanted parent) := by
  constructor
  · intro hval
    refine ⟨?_, ?_, ?_⟩
    · exact excludeGo_glob_mem fs wanted parent unwanted.length unwanted le_rfl U hU hval
    · intro hmem
      rcases excludeGo_shape fs wanted parent unwanted.length unwanted le_rfl _ hmem with
        ⟨v, hvm, hvval, hveq⟩ | ⟨v, hvm, hvval, hveq⟩
      · have hvU : U = v := relpathP_inj U v parent (hq U hU).1 (hq v hvm).1 hveq
        rw [← hvU] at hvval
        rw [hval] at hvval
        exact Bool.noConfusion hvval
      · have hUeq : U = dirnameP v ++ [starJava] :=
          relpathP_inj U (dirnameP v ++ [starJava]) parent (hq U hU).1
            (nodots_concat_star _ (nodots_dropLast v (hq v hvm).1)) hveq
        apply (hq U hU).2
        rw [hUeq]
        exact List.getLast?_concat _
    · intro V hV _hne hVglob hmem
      have hVdir : dirnameP V = dirnameP U :=
        ((globJava_mem_iff fs (dirnameP U) V).mp hVglob).2.1
      rcases excludeGo_shape fs wanted parent unwanted.length unwanted le_rfl _ hmem with
        ⟨v, hvm, hvval, hveq⟩ | ⟨v, hvm, hvval, hveq⟩
      · have hvV : V = v := relpathP_inj V v parent (hq V hV).1 (hq v hvm).1 hveq
        rw [← hvV, hVdir, hval] at hvval
        exact Bool.noConfusion hvval
      · have hVeq : V = dirnameP v ++ [starJava] :=
          relpathP_inj V (dirnameP v ++ [starJava]) parent (hq V hV).1
            (nodots_concat_star _ (nodots_dropLast v (hq v hvm).1)) hveq
        apply (hq V hV).2
        rw [hVeq]
        exact List.getLast?_concat _
  · intro hval
    constructor
    · exact excludeGo_lit_mem fs wanted parent unwanted.length unwanted le_rfl U hU hval
    · intro hmem
      rcases excludeGo_shape fs wanted parent unwanted.length unwanted le_rfl _ hmem with
        ⟨v, hvm, hvval, hveq⟩ | ⟨v, hvm, hvval, hveq⟩
      · have hveq' : dirnameP U ++ [starJava] = v :=
          relpathP_inj (dirnameP U ++ [starJava]) v parent
            (nodots_concat_star _ (nodots_dropLast U (hq U hU).1)) (hq v hvm).1 hveq
        apply (hq v hvm).2
        rw [← hveq']
        exact List.getLast?_concat _
      · have hveq' : dirnameP U ++ [starJava] = dirnameP v ++ [starJava] :=
          relpathP_inj (dirnameP U ++ [starJava]) (dirnameP v ++ [starJava]) parent
            (nodots_concat_star _ (nodots_dropLast U (hq U hU).1))
            (nodots_concat_star _ (nodots_dropLast v (hq v hvm).1)) hveq
        have hdir : dirnameP U = dirnameP v := List.append_cancel_right hveq'
        rw [← hdir, hval] at hvval
        exact Bool.noConfusion hvval

/-- Closed instance of the no-wanted-file branch of `claim6_theorem`: on
disk only `s/B.java`, owned only `r/A.java`; the exclude list gets the glob
`s/*.java`, not the literal `s/B.java`. -/
theorem claim6_witness :
    relpathP (dirnameP ["s", "B.java"] ++ [starJava]) [] ∈
      _ComputeExcludeFilters [["s", "B.java"]] [["r", "A.java"]] [["s", "B.java"]] [] ∧
    relpathP ["s", "B.java"] [] ∉
      _ComputeExcludeFilters [["s", "B.java"]] [["r", "A.java"]] [["s", "B.java"]] [] ∧
    ∀ V ∈ ([["s", "B.java"]] : List Pth), V ≠ ["s", "B.java"] →
      V ∈ globJava [["s", "B.java"]] (dirnameP ["s", "B.java"]) →
      relpathP V [] ∉
        _ComputeExcludeFilters [["s", "B.java"]] [["r", "A.java"]] [["s", "B.java"]] [] :=
  ( claim6_theorem [["s", "B.java"]] [["r", "A.java"]] [["s", "B.java"]] []
    ["s", "B.java"] (by decide) (by decide)).1 (by decide)

/-- C1 counterexample: the entry owns only `a/src/x/W.java`, which is not on
disk; on disk there is only `a/src/x/U.java`.  `_CreateJavaSourceDir` infers
the root `a/src` and computes the exclude list `[x/*.java]` — a
directory-glob pattern that matches the owned file `W.java`'s path, so an
exclude pattern computed by the source-directory/exclude computation does
exclude a file present in the entry's owned source-file list (one not
present on disk at scan time). -/
theorem claim1_counterexample :
    _CreateJavaSourceDir [["a", "src", "x", "U.java"]] []
        [["a", "src", "x", "W.java"]] =
      some ([["a", "src"]], [["x", starJava]]) ∧
    rebaseAbsP [] ["a", "src", "x", "W.java"] = ["a", "src", "x", "W.java"] ∧
    excludesFile ["a", "src"] ["x", starJava] ["a", "src", "x", "W.java"] = true := by
  refine ⟨by decide, by decide, by decide⟩

/-- C1 (amended): an exclude pattern computed for a source root never
excludes an owned (wanted) file of that root's own group that is present on
disk and visible to the directory glob, with the unwanted set exactly as
`_CreateJavaSourceDir` builds it (the on-disk scan minus the owned files);
owned files missing from disk at scan time, and owned files of a different
inferred root, are not protected. -/
theorem claim1_theorem (fs wanted : List Pth) (parent W : Pth)
    (hW : W ∈ wanted)
    (hWdisk : W ∈ globJava fs (dirnameP W))
    (hfs : ∀ f ∈ fs, nodots f ∧ f.getLast? ≠ some starJava) :
    ∀ pat ∈ _ComputeExcludeFilters fs wanted
        ((findInDirectory fs parent).filter (fun f => !(wanted.contains f))) parent,
      excludesFile parent pat W = false := by
  intro pat hpat
  rcases excludeGo_shape fs wanted parent _ _ le_rfl pat hpat with
    ⟨v, hvm, hvval, hveq⟩ | ⟨v, hvm, hvval, hveq⟩
  · -- literal pattern for an unwanted file v
    obtain ⟨hvfind, hvnw⟩ := (mem_filter_not_found _ wanted v).mp hvm
    obtain ⟨hvfs, hvtake, hvlen⟩ := findInDirectory_mem fs parent v hvfind
    have hrel : relpathP v parent = v.drop parent.length :=
      relpathP_of_under v parent hvtake hvlen
    have hdropne : v.drop parent.length ≠ [] := by
      intro hcon
      have := List.drop_eq_nil_iff_le.mp hcon
      omega
    have hlast : (v.drop parent.length).getLast? = v.getLast? := by
      conv_rhs => rw [← prefix_append_drop v parent hvtake]
      rw [List.getLast?_append]
      cases hgl : (v.drop parent.length).getLast? with
      | none => exact absurd (List.getLast?_eq_none_iff.mp hgl) hdropne
      | some y => rfl
    have hlastne : (v.drop parent.length).getLast? ≠ some starJava := by
      rw [hlast]
      exact (hfs v hvfs).2
    subst hveq
    unfold excludesFile
    rw [hrel]
    rw [if_neg (by simp [hlastne])]
    rw [prefix_append_drop v parent hvtake]
    exact beq_false_of_ne (fun hcon => hvnw (hcon ▸ hW))
  · -- directory-glob pattern for the directory of an unwanted file v
    obtain ⟨hvfind, hvnw⟩ := (mem_filter_not_found _ wanted v).mp hvm
    obtain ⟨hvfs, hvtake, hvlen⟩ := findInDirectory_mem fs parent v hvfind
    have hdlen : parent.length ≤ (dirnameP v).length := by
      unfold dirnameP
      rw [List.length_dropLast]
      omega
    have hdtake : (dirnameP v).take parent.length = parent := by
      have h1 : dirnameP v = v.take (v.length - 1) := List.dropLast_eq_take v
      rw [h1, List.take_take]
      have h2 : parent.length ⊓ (v.length - 1) = parent.length := min_eq_left (by omega)
      rw [h2]
      exact hvtake
    have hgptake : (dirnameP v ++ [starJava]).take parent.length = parent := by
      rw [List.take_append_of_le_length hdlen]
      exact hdtake
    have hgplen : parent.length < (dirnameP v ++ [starJava]).length := by
      rw [List.length_append]
      simp only [List.length_singleton]
      omega
    have hrel : relpathP (dirnameP v ++ [starJava]) parent =
        (dirnameP v).drop parent.length ++ [starJava] := by
      rw [relpathP_of_under _ parent hgptake hgplen]
      exact List.drop_append_of_le_length hdlen
    subst hveq
    unfold excludesFile
    rw [hrel]
    rw [if_pos (by simp [List.getLast?_concat])]
    rw [List.dropLast_concat]
    rw [prefix_append_drop (dirnameP v) parent hdtake]
    have hne : W.dropLast ≠ dirnameP v := by
      intro hcon
      obtain ⟨hWfs, _, hWb⟩ := (globJava_mem_iff fs (dirnameP W) W).mp hWdisk
      have hWglob2 : W ∈ globJava fs (dirnameP v) :=
        (globJava_mem_iff fs (dirnameP v) W).mpr ⟨hWfs, hcon, hWb⟩
      have hWvalid : W ∈ (globJava fs (dirnameP v)).filter (fun g => wanted.contains g) :=
        List.mem_filter.mpr ⟨hWglob2, List.elem_eq_true_of_mem hW⟩
      rw [List.isEmpty_iff.mp hvval] at hWvalid
      simp at hWvalid
    rw [beq_false_of_ne hne, Bool.false_and]

/-- Closed instance of `claim1_theorem`: root `r` owns `r/x/W.java` (on
disk) while `r/x/U.java` is unwanted; the computed literal pattern
`x/U.java` does not exclude the owned file. -/
theorem claim1_witness :
    excludesFile ["r"] ["x", "U.java"] ["r", "x", "W.java"] = false :=
  claim1_theorem [["r", "x", "W.java"], ["r", "x", "U.java"]] [["r", "x", "W.java"]]
    ["r"] ["r", "x", "W.java"] (by decide) (by decide) (by decide)
    ["x", "U.java"] (by decide)
